import Mathlib

/-!
# Validators of conventional-pr: a shallow embedding

The development embeds the validators of `internal/validator` (`issue.go`, `commit.go`,
`verified.go`) together with the part of Go's `regexp`, `strconv` and `strings` packages that
`issue.go` relies on, and proves properties of the embedded functions.

Conventions of the embedding:

* a Go `string` is a Lean `String` (a body is valid UTF-8 text), an `int` is an `Int`, and the
  platform is a 64-bit one;
* an `error` is a `GoError`; a nil pointer or nil error is `none`;
* a run-time panic (index out of range, `MustCompile` on an invalid pattern) is `none` as the result
  of the function, so `some r` means that the function returned `r`;
* the GitHub client is an external collaborator: its methods are functions of their arguments
  (the `context.Context` argument carries no data and is dropped);
* the pointers a slice holds (references, commits) are not nil, and neither are the
  configuration, the client and the pull request handed to a validator;
* `regexp` matching is leftmost-first: `Regex.run` is the backtracking search that defines it,
  written for the operators that occur in `keywordPattern`. The pattern a user configures for the
  commit messages is arbitrary, so there `regexp.MustCompile` is a parameter.
-/

namespace ConventionalPR

/-! ## Data model (`internal/entity`, `internal/constants`, `internal.GithubClient`) -/

/-- A Go `error` value, represented by its message. -/
structure GoError where
  msg : String
deriving DecidableEq, Repr

/-- Repository identity, `entity.Meta`. -/
structure Meta where
  Owner : String
  Name : String
deriving DecidableEq, Repr

/-- The fields of `entity.PullRequest` read by the validators. -/
structure PullRequest where
  Number : Int
  Repository : Meta
  Body : String
deriving DecidableEq, Repr

/-- The field of `entity.Configuration` read by `issue.go`. -/
structure Configuration where
  Issue : Bool
deriving DecidableEq, Repr

/-- The fields of `entity.Config` read by `commit.go` (`Commits`, `Pattern`) and by
`verified.go` (`CommitPattern`). `Signed` is the flag of the configuration that enables the
check of the commit signatures (`INPUT_SIGNED` in `config_test.go`); no validator among the
embedded files reads it. -/
structure Config where
  Commits : Bool
  Pattern : String
  CommitPattern : String
  Signed : Bool := false
deriving DecidableEq, Repr

/-- The result type `entity.ValidationResult`. A composite literal that does not mention `Active`
leaves it at its zero value `false`. -/
structure ValidationResult where
  Name : String
  Active : Bool
  Result : Option GoError
deriving DecidableEq, Repr

/-- The issue a successful `GetIssue` points to; the validators only test the pointer for nil. -/
structure Issue where
  Number : Int
deriving DecidableEq, Repr

/-- The struct `github.SignatureVerification` of go-github: whether GitHub verified the
signature of a commit. -/
structure SignatureVerification where
  Verified : Option Bool
deriving DecidableEq, Repr

/-- The inner commit of a `github.RepositoryCommit`; the fields are pointers in go-github.
`Verification` is the field a check of the signatures would read; no validator among the
embedded files does. -/
structure Commit where
  Message : Option String
  SHA : Option String
  Verification : Option SignatureVerification
deriving DecidableEq, Repr

/-- Nil-safe getter of go-github: the message, or the empty string. -/
def Commit.GetMessage : Option Commit → String
  | some c => c.Message.getD ""
  | none => ""

/-- Nil-safe getter of go-github: the SHA, or the empty string. -/
def Commit.GetSHA : Option Commit → String
  | some c => c.SHA.getD ""
  | none => ""

/-- Nil-safe getters of go-github, `GetVerification().GetVerified()`: whether the commit has a
verified signature; `false` when a pointer on the way is nil. -/
def Commit.GetVerified : Option Commit → Bool
  | some c =>
    match c.Verification with
    | some s => s.Verified.getD false
    | none => false
  | none => false

/-- The fields of `github.RepositoryCommit` read by the validators. -/
structure RepositoryCommit where
  SHA : Option String
  Commit : Option Commit
deriving DecidableEq, Repr

/-- Nil-safe getter of go-github on the outer commit. -/
def RepositoryCommit.GetSHA (c : RepositoryCommit) : String := c.SHA.getD ""

/-- The methods of `internal.GithubClient` that the validators call. Each returns the Go pair
(value, error). -/
structure GithubClient where
  GetIssueReferences : Meta → Int → List Meta × Option GoError
  GetIssue : Meta → Int → Option Issue × Option GoError
  GetCommits : String → String → Int → List RepositoryCommit × Option GoError

/-- The values of package `constants` used by the validators. The package is not among the
embedded files, so its values are the fields of a parameter. -/
structure Constants where
  IssueValidatorName : String
  CommitValidatorName : String
  ErrNoIssue : GoError

/-! ## The fragment of Go `regexp` used by `keywordPattern` -/

/-- Simple case folding of a rune, for the comparison with an ASCII literal under the flag `i`:
ASCII upper case goes to lower case, and the two non-ASCII runes whose fold orbit meets ASCII
(LATIN SMALL LETTER LONG S U+017F, KELVIN SIGN U+212A) go to `s` and `k`. A literal matches a
rune when both have the same image. -/
def foldRune (c : Char) : Char :=
  if c = '\u017f' then 's' else if c = '\u212a' then 'k' else c.toLower

/-- Perl class `\s` of RE2: `[\t\n\f\r ]`. -/
def isSpace (c : Char) : Bool :=
  c = '\t' || c = '\n' || c = '\x0c' || c = '\r' || c = ' '

/-- Perl class `\d` of RE2: `[0-9]`. -/
def isDigit (c : Char) : Bool := '0' ≤ c && c ≤ '9'

/-- The class of `.` without the `s` flag: every rune but the newline. -/
def isDot (c : Char) : Bool := c != '\n'

/-- Perl class `\w` of RE2 (ASCII word runes), the class `\b` looks at. -/
def isWordChar (c : Char) : Bool :=
  ('a' ≤ c && c ≤ 'z') || ('A' ≤ c && c ≤ 'Z') || ('0' ≤ c && c ≤ '9') || c = '_'

/-- A position in the subject text: the rune before it, if any, and the text from it on. -/
structure Pos where
  prev : Option Char
  rest : List Char
deriving DecidableEq, Repr

/-- A capture, recorded as the text from its start and the text from its end. -/
abbrev Span := List Char × List Char

/-- Capture registers, indexed by group number (0 is the whole match). -/
abbrev Caps := List (Option Span)

/-- Assertion `\b`: exactly one side of the position is an ASCII word rune. -/
def atWordBoundary (p : Pos) : Bool :=
  (match p.prev with | some c => isWordChar c | none => false) !=
  (match p.rest with | c :: _ => isWordChar c | [] => false)

/-- Syntax of the regular expressions needed for `keywordPattern`, read under the flags `mi`. -/
inductive Regex where
  | empty
  | lit (c : Char)
  | plus (cl : Char → Bool)
  | wordBoundary
  | seq (a b : Regex)
  | alt (a b : Regex)
  | opt (a : Regex)
  | group (i : Nat) (a : Regex)

/-- Greedy `x+` for a one-rune class `x`, in continuation-passing style: longer runs are tried
before shorter ones, and `k` is the rest of the match. -/
def plusRun {R : Type} (cl : Char → Bool) (k : Pos → Option R) : List Char → Option R
  | [] => none
  | x :: xs =>
    if cl x then
      match plusRun cl k xs with
      | some r => some r
      | none => k ⟨some x, xs⟩
    else none

/-- Backtracking matcher. Go's `regexp` returns, among the matches that begin at a position, "the
one that a backtracking search would have found first" (leftmost-first); `run` is that search,
with `k` the continuation to run on the rest of the text. -/
def Regex.run {R : Type} : Regex → Pos → Caps → (Pos → Caps → Option R) → Option R
  | .empty, p, c, k => k p c
  | .lit a, p, c, k =>
    match p.rest with
    | x :: xs => if foldRune x = foldRune a then k ⟨some x, xs⟩ c else none
    | [] => none
  | .plus cl, p, c, k => plusRun cl (fun q => k q c) p.rest
  | .wordBoundary, p, c, k => if atWordBoundary p then k p c else none
  | .seq a b, p, c, k => a.run p c (fun q d => b.run q d k)
  | .alt a b, p, c, k =>
    match a.run p c k with
    | some r => some r
    | none => b.run p c k
  | .opt a, p, c, k =>
    match a.run p c k with
    | some r => some r
    | none => k p c
  | .group i a, p, c, k => a.run p c (fun q d => k q (d.set i (some (p.rest, q.rest))))

/-- The literal string `w` as a regular expression. -/
def Regex.str : List Char → Regex
  | [] => .empty
  | [c] => .lit c
  | c :: cs => .seq (.lit c) (Regex.str cs)

/-- The text of a capture register; a group that did not take part yields the empty string. -/
def capText : Option Span → List Char
  | some (s, e) => s.take (s.length - e.length)
  | none => []

/-- The slice of strings `FindAllStringSubmatch` builds for one match. -/
def submatch (c : Caps) : List String := c.map (fun s => String.mk (capText s))

/-- One anchored attempt at position `p` for a pattern with `n` groups: the end position and the
registers of the first match the search finds. -/
def Regex.exec (re : Regex) (n : Nat) (p : Pos) : Option (Pos × Caps) :=
  re.run p (List.replicate (n + 1) none) (fun q c => some (q, c.set 0 (some (p.rest, q.rest))))

/-- The loop of `(*Regexp).allMatches`: successive leftmost matches, each search starting where
the previous match ended. `skip` counts the runes of the last match still to pass over, and
`atPrevEnd` says that the position is the end of the previous match, where an empty match is
not accepted. -/
def Regex.allMatches (re : Regex) (n : Nat) :
    List Char → Nat → Bool → Option Char → List (List String)
  | [], 0, atPrevEnd, prev =>
    match re.exec n ⟨prev, []⟩ with
    | some (_, c) => if atPrevEnd then [] else [submatch c]
    | none => []
  | [], _ + 1, _, _ => []
  | x :: xs, skip + 1, _, _ => Regex.allMatches re n xs skip true (some x)
  | x :: xs, 0, atPrevEnd, prev =>
    match re.exec n ⟨prev, x :: xs⟩ with
    | none => Regex.allMatches re n xs 0 false (some x)
    | some (q, c) =>
      let width := (x :: xs).length - q.rest.length
      if width = 0 then
        if atPrevEnd then Regex.allMatches re n xs 0 false (some x)
        else submatch c :: Regex.allMatches re n xs 0 false (some x)
      else submatch c :: Regex.allMatches re n xs (width - 1) true (some x)

/-- Go's `FindAllStringSubmatch(s, -1)` for a pattern with `n` groups. -/
def Regex.FindAllStringSubmatch (re : Regex) (n : Nat) (s : String) : List (List String) :=
  re.allMatches n s.data 0 false none

/-- The alternation `close|closes|closed|fix|fixes|fixed|resolve|resolves|resolved`, in the order
of the source. -/
def keywordAlternation : Regex :=
  .alt (.str "close".data) (.alt (.str "closes".data) (.alt (.str "closed".data)
  (.alt (.str "fix".data) (.alt (.str "fixes".data) (.alt (.str "fixed".data)
  (.alt (.str "resolve".data) (.alt (.str "resolves".data) (.str "resolved".data))))))))

/-- The group `(.+/.+)` of `keywordPattern`. -/
def ownerRepoGroup : Regex :=
  .group 2 (.seq (.plus isDot) (.seq (.lit '/') (.plus isDot)))

/-- The part of `keywordPattern` after the whitespace: `(.+/.+)?#(\d+)\b`. -/
def keywordTail : Regex :=
  .seq (.opt ownerRepoGroup) (.seq (.lit '#') (.seq (.group 3 (.plus isDigit)) .wordBoundary))

/-- The package-level pattern of `issue.go`:
`(?mi)\b(close|closes|closed|fix|fixes|fixed|resolve|resolves|resolved)\s+(.+/.+)?#(\d+)\b`. -/
def keywordPattern : Regex :=
  .seq .wordBoundary (.seq (.group 1 keywordAlternation) (.seq (.plus isSpace) keywordTail))

/-- Number of capture groups of `keywordPattern`. -/
def keywordPattern.NumSubexp : Nat := 3

/-! ## `strconv.Atoi` and `strings.Split` -/

/-- The two sentinel errors a `strconv.NumError` wraps. -/
inductive NumError where
  | ErrSyntax
  | ErrRange
deriving DecidableEq, Repr

/-- Largest `int` of a 64-bit platform. -/
def maxInt : Int := 2 ^ 63 - 1

/-- Smallest `int` of a 64-bit platform. -/
def minInt : Int := -(2 ^ 63)

/-- The digit loop of `strconv.ParseUint` in base 10, from the accumulator `acc`: a byte that is
no digit is a syntax error, and an accumulator that leaves 64 bits is a range error, whichever
comes first. -/
def parseUintLoop : List Char → Nat → Except NumError Nat
  | [], acc => .ok acc
  | c :: cs, acc =>
    if isDigit c then
      let acc1 := acc * 10 + (c.toNat - 48)
      if acc1 ≥ 2 ^ 64 then .error .ErrRange else parseUintLoop cs acc1
    else .error .ErrSyntax

/-- Sign handling and clamping of `strconv.ParseInt(s, 10, 0)`, which `Atoi` returns (its fast path
for short strings computes the same value). -/
def atoiSigned (neg : Bool) (digits : List Char) : Int × Option NumError :=
  match digits with
  | [] => (0, some .ErrSyntax)
  | _ :: _ =>
    match parseUintLoop digits 0 with
    | .error .ErrSyntax => (0, some .ErrSyntax)
    | .error .ErrRange => (if neg then minInt else maxInt, some .ErrRange)
    | .ok un =>
      if neg then
        if un > 2 ^ 63 then (minInt, some .ErrRange) else (-(un : Int), none)
      else
        if un ≥ 2 ^ 63 then (maxInt, some .ErrRange) else ((un : Int), none)

/-- Go's `strconv.Atoi`: the value and the error. -/
def Atoi (s : String) : Int × Option NumError :=
  match s.data with
  | [] => (0, some .ErrSyntax)
  | c :: cs =>
    if c = '-' then atoiSigned true cs
    else if c = '+' then atoiSigned false cs
    else atoiSigned false (c :: cs)

/-- Splitting of a text at every occurrence of the rune `sep`. -/
def splitRunes (sep : Char) : List Char → List (List Char)
  | [] => [[]]
  | c :: cs =>
    if c = sep then [] :: splitRunes sep cs
    else
      match splitRunes sep cs with
      | t :: ts => (c :: t) :: ts
      | [] => [[c]]

/-- Go's `strings.Split(s, sep)` for a separator of one rune, the way `issue.go` calls it. -/
def Split (s : String) (sep : Char) : List String :=
  (splitRunes sep s.data).map String.mk

/-! ## `internal/validator/issue.go` -/

/-- The struct `issueValidator`. -/
structure issueValidator where
  Name : String
  client : GithubClient
  config : Configuration

/-- Constructor `NewIssueValidator`. -/
def NewIssueValidator (K : Constants) (client : GithubClient) (config : Configuration) :
    issueValidator :=
  { Name := K.IssueValidatorName, client := client, config := config }

/-- The "owner/name" string the pre-check of `IsValid` builds for a repository. -/
def Meta.joined (m : Meta) : String := m.Owner ++ "/" ++ m.Name

/-- Lines 97 to 107 of `issue.go`: the repository and the number that one match designates.
`none` is an index out of range. (`len(keyword[2]) > 0` counts bytes; it holds exactly when the
string has a rune.) -/
def resolveReference (pullRequest : PullRequest) (keyword : List String) : Option (Meta × Int) :=
  match keyword[3]? with
  | none => none
  | some k3 =>
    let num := (Atoi k3).1
    match keyword[2]? with
    | none => none
    | some k2 =>
      if k2.length > 0 then
        let tokens := Split k2 '/'
        match tokens[1]?, tokens[0]? with
        | some t1, some t0 => some ({ Name := t1, Owner := t0 }, num)
        | _, _ => none
      else some (pullRequest.Repository, num)

/-- The loop of `hasIssueMagicString` over the matches: the first match whose lookup returns a
non-nil issue ends it with `true`; the error of `GetIssue` is discarded. -/
def issueValidator.lookup (v : issueValidator) (pullRequest : PullRequest) :
    List (List String) → Option Bool
  | [] => some false
  | keyword :: keywords =>
    match resolveReference pullRequest keyword with
    | none => none
    | some (org, num) =>
      match (v.client.GetIssue org num).1 with
      | some _ => some true
      | none => issueValidator.lookup v pullRequest keywords

/-- Method `hasIssueMagicString`. -/
def issueValidator.hasIssueMagicString (v : issueValidator) (pullRequest : PullRequest) :
    Option Bool :=
  v.lookup pullRequest
    (keywordPattern.FindAllStringSubmatch keywordPattern.NumSubexp pullRequest.Body)

/-- The loop of `hasIssueMagicString` once more, recording the calls: the arguments of the
`GetIssue` calls in the order they are made, and the value returned. -/
def issueValidator.lookupTrace (v : issueValidator) (pullRequest : PullRequest) :
    List (List String) → Option (List (Meta × Int) × Bool)
  | [] => some ([], false)
  | keyword :: keywords =>
    match resolveReference pullRequest keyword with
    | none => none
    | some (org, num) =>
      match (v.client.GetIssue org num).1 with
      | some _ => some ([(org, num)], true)
      | none =>
        match issueValidator.lookupTrace v pullRequest keywords with
        | none => none
        | some (calls, found) => some ((org, num) :: calls, found)

/-- Method `hasIssueMagicString` with the record of its `GetIssue` calls. -/
def issueValidator.hasIssueMagicStringTrace (v : issueValidator) (pullRequest : PullRequest) :
    Option (List (Meta × Int) × Bool) :=
  v.lookupTrace pullRequest
    (keywordPattern.FindAllStringSubmatch keywordPattern.NumSubexp pullRequest.Body)

/-- The loop of `IsValid` over the native references: is there one whose "owner/name" string
equals that of the repository of the pull request? -/
def hasOwnReference (pullRequest : PullRequest) : List Meta → Bool
  | [] => false
  | reference :: references =>
    if reference.joined = pullRequest.Repository.joined then true
    else hasOwnReference pullRequest references

/-- Method `issueValidator.IsValid`. -/
def issueValidator.IsValid (K : Constants) (v : issueValidator) (pullRequest : PullRequest) :
    Option ValidationResult :=
  if !v.config.Issue then
    some { Name := K.IssueValidatorName, Active := false, Result := none }
  else
    match v.client.GetIssueReferences pullRequest.Repository pullRequest.Number with
    | (_, some _) => some { Name := K.IssueValidatorName, Active := true, Result := none }
    | (references, none) =>
      if hasOwnReference pullRequest references then
        some { Name := K.IssueValidatorName, Active := true, Result := none }
      else
        match v.hasIssueMagicString pullRequest with
        | none => none
        | some true => some { Name := K.IssueValidatorName, Active := true, Result := none }
        | some false =>
          some { Name := K.IssueValidatorName, Active := true, Result := some K.ErrNoIssue }

/-- The references of a body: what `hasIssueMagicString` resolves each match of
`keywordPattern` to, in the order of the matches. -/
def extractReferences (pullRequest : PullRequest) : List (Option (Meta × Int)) :=
  (keywordPattern.FindAllStringSubmatch keywordPattern.NumSubexp pullRequest.Body).map
    (resolveReference pullRequest)

/-! ## `internal/validator/commit.go` -/

/-- The part of package `regexp` that `commit.go` uses on the configured pattern:
`MustCompile` returns the matching function of a pattern, or panics (`none`). -/
abbrev RegexpCompiler := String → Option (String → Bool)

/-- The field of `github.PullRequest` read by `commit.go`. -/
structure GithubPullRequest where
  Number : Option Int
deriving DecidableEq, Repr

/-- Nil-safe getter of go-github. -/
def GithubPullRequest.GetNumber (p : GithubPullRequest) : Int := p.Number.getD 0

/-- The struct `commitValidator`. -/
structure commitValidator where
  client : GithubClient
  config : Config
  meta : Meta
  Name : String

/-- Constructor `NewCommitValidator`. -/
def NewCommitValidator (K : Constants) (client : GithubClient) (config : Config) (meta : Meta) :
    commitValidator :=
  { Name := K.CommitValidatorName, client := client, config := config, meta := meta }

/-- Go's `fmt.Errorf("commit %s does not have valid commit message", sha)`. -/
def commitError (sha : String) : GoError :=
  ⟨"commit " ++ sha ++ " does not have valid commit message"⟩

/-- The loop of `commitValidator.IsValid` over the commits. -/
def commitValidator.check (v : commitValidator) (pattern : String → Bool) :
    List RepositoryCommit → ValidationResult
  | [] => { Name := v.Name, Active := false, Result := none }
  | commit :: commits =>
    if !pattern (Commit.GetMessage commit.Commit) then
      { Name := v.Name, Active := false,
        Result := some (commitError (Commit.GetSHA commit.Commit)) }
    else commitValidator.check v pattern commits

/-- Method `commitValidator.IsValid`; the error of `GetCommits` is discarded. -/
def commitValidator.IsValid (MustCompile : RegexpCompiler) (v : commitValidator)
    (pullRequest : GithubPullRequest) : Option ValidationResult :=
  if !v.config.Commits then
    some { Name := v.Name, Active := false, Result := none }
  else
    let commits := (v.client.GetCommits v.meta.Owner v.meta.Name pullRequest.GetNumber).1
    match MustCompile v.config.Pattern with
    | none => none
    | some pattern => some (v.check pattern commits)

/-! ## `internal/validator/verified.go` -/

/-- The struct `verifiedValidator`. -/
structure verifiedValidator where
  client : GithubClient
  config : Config
  meta : Meta
  Name : String

/-- The loop of `verifiedValidator.IsValid` over the commits; the SHA in the error is that of the
outer commit, `commit.GetSHA()`. -/
def verifiedValidator.check (v : verifiedValidator) (pattern : String → Bool) :
    List RepositoryCommit → ValidationResult
  | [] => { Name := v.Name, Active := false, Result := none }
  | commit :: commits =>
    if !pattern (Commit.GetMessage commit.Commit) then
      { Name := v.Name, Active := false, Result := some (commitError commit.GetSHA) }
    else verifiedValidator.check v pattern commits

/-- Method `verifiedValidator.IsValid`; the error of `GetCommits` is discarded. -/
def verifiedValidator.IsValid (MustCompile : RegexpCompiler) (v : verifiedValidator)
    (pullRequest : GithubPullRequest) : Option ValidationResult :=
  if v.config.CommitPattern = "" then
    some { Name := v.Name, Active := false, Result := none }
  else
    let commits := (v.client.GetCommits v.meta.Owner v.meta.Name pullRequest.GetNumber).1
    match MustCompile v.config.CommitPattern with
    | none => none
    | some pattern => some (v.check pattern commits)

/-- The interface `internal.Validator` that `commit.go` and `verified.go` return: a value of one
of the struct types of these files, which carries its own `IsValid`. -/
inductive Validator where
  | commit (v : commitValidator)
  | verified (v : verifiedValidator)

/-- The method `IsValid` of an interface value: the method of its dynamic type. -/
def Validator.IsValid (MustCompile : RegexpCompiler) :
    Validator → GithubPullRequest → Option ValidationResult
  | .commit v, pullRequest => v.IsValid MustCompile pullRequest
  | .verified v, pullRequest => v.IsValid MustCompile pullRequest

/-- Constructor `NewVerifiedValidator`: the value it returns is a `commitValidator` named
`CommitValidatorName`. -/
def NewVerifiedValidator (K : Constants) (client : GithubClient) (config : Config)
    (meta : Meta) : Validator :=
  .commit { Name := K.CommitValidatorName, client := client, config := config, meta := meta }

/-! ## Vocabulary of the statements -/

/-- The nine closing keywords. -/
def keywords : List String :=
  ["close", "closes", "closed", "fix", "fixes", "fixed", "resolve", "resolves", "resolved"]

/-- The text `kw` is the keyword `w` written in some letter case: rune by rune it folds to `w`
(each letter of `w` in lower or upper case; the long s also folds to `s`). -/
def isCaseVariant (w kw : List Char) : Prop := kw.map foldRune = w

/-- The text `kw` is one of the nine keywords in some letter case. -/
def isKeyword (kw : List Char) : Prop := ∃ w ∈ keywords, isCaseVariant w.data kw

/-- The body contains a closing keyword in some letter case. -/
def containsKeyword (body : List Char) : Prop :=
  ∃ pre kw post, isKeyword kw ∧ body = pre ++ kw ++ post

/-- Value of a string of decimal digits. -/
def decimalValue (ds : List Char) : Nat :=
  ds.foldl (fun acc c => acc * 10 + (c.toNat - 48)) 0

/-- The runes the claims allow in an owner or repository name: ASCII letters, digits, `-`, `_`
and `.`. -/
def isRepoChar (c : Char) : Bool :=
  c.isAlphanum || c = '-' || c = '_' || c = '.'

/-- The policy "an issue is linked": (a) a native reference has the "owner/name" string of the
repository of the pull request, or (b) `GetIssue` returns a non-nil issue for a reference
extracted from the body. -/
def isLinked (v : issueValidator) (pullRequest : PullRequest) (references : List Meta) : Prop :=
  (∃ r ∈ references, r.joined = pullRequest.Repository.joined) ∨
  (∃ org num, some (org, num) ∈ extractReferences pullRequest ∧
    (v.client.GetIssue org num).1 ≠ none)

/-- The passing result of the issue validator. -/
def issuePass (K : Constants) : ValidationResult :=
  { Name := K.IssueValidatorName, Active := true, Result := none }

/-- The failing result of the issue validator. -/
def issueFail (K : Constants) : ValidationResult :=
  { Name := K.IssueValidatorName, Active := true, Result := some K.ErrNoIssue }

/-- Constants for the concrete evaluations. -/
def sampleConstants : Constants :=
  { IssueValidatorName := "issue", CommitValidatorName := "commit",
    ErrNoIssue := ⟨"no issue"⟩ }

/-- A client with no native reference, no commit, and whose every `GetIssue` call fails. -/
def failingIssueClient : GithubClient :=
  { GetIssueReferences := fun _ _ => ([], none),
    GetIssue := fun _ _ => (none, some ⟨"502 Bad Gateway"⟩),
    GetCommits := fun _ _ _ => ([], none) }

/-- A client with no native reference for which the only existing issue is number 3 of
`namcheee/conventional-pr`; a lookup of any other issue is a clean "not found". -/
def onlyIssueThreeClient : GithubClient :=
  { GetIssueReferences := fun _ _ => ([], none),
    GetIssue := fun m n =>
      (if m = ⟨"namcheee", "conventional-pr"⟩ ∧ n = 3 then some ⟨3⟩ else none, none),
    GetCommits := fun _ _ _ => ([], none) }


/-- A stand-in for `regexp.MustCompile` in concrete evaluations: every pattern compiles, and
matches the messages that start with it literally. -/
def literalCompiler : RegexpCompiler :=
  fun pattern => some (fun message => (message.data.take pattern.length) == pattern.data)

/-- A client whose `GetCommits` returns three commits, the second and third with a message that
does not start with "feat". -/
def threeCommitsClient : GithubClient :=
  { GetIssueReferences := fun _ _ => ([], none),
    GetIssue := fun _ _ => (none, none),
    GetCommits := fun _ _ _ =>
      ([⟨some "a1", some ⟨some "feat: add parser", some "a1", none⟩⟩,
        ⟨some "b2", some ⟨some "oops", some "b2", none⟩⟩,
        ⟨some "c3", some ⟨some "wip", some "c3", none⟩⟩], none) }

/-- A commit validator over `threeCommitsClient` with the pattern "feat". -/
def sampleCommitValidator (commits : Bool) : commitValidator :=
  NewCommitValidator sampleConstants threeCommitsClient
    { Commits := commits, Pattern := "feat", CommitPattern := "" } ⟨"Namchee", "ethos"⟩

/-- A client whose `GetCommits` returns one commit with the message "oops" together with an
error. -/
def partialCommitsClient : GithubClient :=
  { GetIssueReferences := fun _ _ => ([], none),
    GetIssue := fun _ _ => (none, none),
    GetCommits := fun _ _ _ =>
      ([⟨some "b2", some ⟨some "oops", some "b2", none⟩⟩], some ⟨"unexpected EOF"⟩) }

/-- A client whose `GetCommits` fails the way go-github does: no commit, and an error. -/
def failingCommitsClient : GithubClient :=
  { GetIssueReferences := fun _ _ => ([], none),
    GetIssue := fun _ _ => (none, none),
    GetCommits := fun _ _ _ => ([], some ⟨"502 Bad Gateway"⟩) }

/-- A client whose `GetCommits` returns one commit with the message "feat: add parser" whose
signature GitHub did not verify. -/
def unverifiedCommitClient : GithubClient :=
  { GetIssueReferences := fun _ _ => ([], none),
    GetIssue := fun _ _ => (none, none),
    GetCommits := fun _ _ _ =>
      ([⟨some "a1", some ⟨some "feat: add parser", some "a1", some ⟨some false⟩⟩⟩], none) }

/-- A configuration with every rule of the commits enabled: the pattern "feat" for the
messages, and the check of the signatures. -/
def signedConfig : Config :=
  { Commits := true, Pattern := "feat", CommitPattern := "feat", Signed := true }

/-! ## Relational reading of the matcher -/

/-- The matches of a regular expression without their priorities: from position `p` with
registers `c`, the expression can end at position `q` with registers `d`. -/
def Regex.Matches : Regex → Pos → Caps → Pos → Caps → Prop
  | .empty, p, c, q, d => q = p ∧ d = c
  | .lit a, p, c, q, d =>
    ∃ x, foldRune x = foldRune a ∧ p.rest = x :: q.rest ∧ q.prev = some x ∧ d = c
  | .plus cl, p, c, q, d =>
    ∃ m x, (∀ y ∈ m ++ [x], cl y = true) ∧ p.rest = m ++ x :: q.rest ∧ q.prev = some x ∧ d = c
  | .wordBoundary, p, c, q, d => atWordBoundary p = true ∧ q = p ∧ d = c
  | .seq a b, p, c, q, d => ∃ r e, a.Matches p c r e ∧ b.Matches r e q d
  | .alt a b, p, c, q, d => a.Matches p c q d ∨ b.Matches p c q d
  | .opt a, p, c, q, d => a.Matches p c q d ∨ (q = p ∧ d = c)
  | .group i a, p, c, q, d => ∃ e, a.Matches p c q e ∧ d = e.set i (some (p.rest, q.rest))

/-- The continuation that ends an anchored attempt started on the text `t`. -/
def execEnd (t : List Char) : Pos → Caps → Option (Pos × Caps) :=
  fun q c => some (q, c.set 0 (some (t, q.rest)))

/-- What the group `(.+/.+)` holds after a match: nothing (the group was skipped), or a text
with a non-empty part without newline before and after a `/`. -/
def isOwnerRepoCapture (g : List Char) : Prop :=
  g = [] ∨ ∃ a b, a ≠ [] ∧ b ≠ [] ∧ g = a ++ '/' :: b ∧ (∀ y ∈ a, isDot y = true) ∧
    (∀ y ∈ b, isDot y = true)

/-! ## Auxiliary lemmas -/

/-! ### Runes -/

theorem char_eq_iff_toNat (a b : Char) : a = b ↔ a.toNat = b.toNat := by
  constructor
  · intro h; rw [h]
  · intro h
    rw [← Char.ofNat_toNat a, ← Char.ofNat_toNat b, h]

theorem char_le_iff_toNat (a b : Char) : a ≤ b ↔ a.toNat ≤ b.toNat := Iff.rfl

theorem toNat_ofNat_of_lt (n : Nat) (h : n < 55296) : (Char.ofNat n).toNat = n := by
  have hv : n.isValidChar := Or.inl h
  rw [Char.ofNat, dif_pos hv]
  rfl

theorem toLower_toNat (x : Char) :
    x.toLower.toNat = if 65 ≤ x.toNat ∧ x.toNat ≤ 90 then x.toNat + 32 else x.toNat := by
  unfold Char.toLower
  simp only [ge_iff_le]
  split
  · rename_i h
    exact toNat_ofNat_of_lt _ (by omega)
  · rfl

theorem foldRune_toNat (x : Char) :
    (foldRune x).toNat =
      if x.toNat = 383 then 115 else if x.toNat = 8490 then 107
      else if 65 ≤ x.toNat ∧ x.toNat ≤ 90 then x.toNat + 32 else x.toNat := by
  unfold foldRune
  have h1 : (x = '\u017f') ↔ x.toNat = 383 := char_eq_iff_toNat _ _
  have h2 : (x = '\u212a') ↔ x.toNat = 8490 := char_eq_iff_toNat _ _
  by_cases c1 : x.toNat = 383
  · rw [if_pos (h1.mpr c1), if_pos c1]; rfl
  · rw [if_neg (fun h => c1 (h1.mp h)), if_neg c1]
    by_cases c2 : x.toNat = 8490
    · rw [if_pos (h2.mpr c2), if_pos c2]; rfl
    · rw [if_neg (fun h => c2 (h2.mp h)), if_neg c2]
      exact toLower_toNat x

theorem isSpace_iff (c : Char) :
    isSpace c = true ↔
      c.toNat = 9 ∨ c.toNat = 10 ∨ c.toNat = 12 ∨ c.toNat = 13 ∨ c.toNat = 32 := by
  simp only [isSpace, Bool.or_eq_true, decide_eq_true_eq, char_eq_iff_toNat]
  have e1 : '\t'.toNat = 9 := rfl
  have e2 : '\n'.toNat = 10 := rfl
  have e3 : '\x0c'.toNat = 12 := rfl
  have e4 : '\r'.toNat = 13 := rfl
  have e5 : ' '.toNat = 32 := rfl
  rw [e1, e2, e3, e4, e5]
  tauto

theorem isDigit_iff (c : Char) : isDigit c = true ↔ 48 ≤ c.toNat ∧ c.toNat ≤ 57 := by
  simp only [isDigit, Bool.and_eq_true, decide_eq_true_eq, char_le_iff_toNat]
  have e1 : '0'.toNat = 48 := rfl
  have e2 : '9'.toNat = 57 := rfl
  rw [e1, e2]

theorem isDot_iff (c : Char) : isDot c = true ↔ c.toNat ≠ 10 := by
  simp only [isDot, bne_iff_ne, ne_eq, char_eq_iff_toNat]
  have e2 : '\n'.toNat = 10 := rfl
  rw [e2]

theorem isWordChar_iff (c : Char) :
    isWordChar c = true ↔
      (97 ≤ c.toNat ∧ c.toNat ≤ 122) ∨ (65 ≤ c.toNat ∧ c.toNat ≤ 90) ∨
        (48 ≤ c.toNat ∧ c.toNat ≤ 57) ∨ c.toNat = 95 := by
  simp only [isWordChar, Bool.or_eq_true, Bool.and_eq_true, decide_eq_true_eq,
    char_le_iff_toNat, char_eq_iff_toNat]
  have e1 : 'a'.toNat = 97 := rfl
  have e2 : 'z'.toNat = 122 := rfl
  have e3 : 'A'.toNat = 65 := rfl
  have e4 : 'Z'.toNat = 90 := rfl
  have e5 : '0'.toNat = 48 := rfl
  have e6 : '9'.toNat = 57 := rfl
  have e7 : '_'.toNat = 95 := rfl
  rw [e1, e2, e3, e4, e5, e6, e7]
  tauto

theorem isRepoChar_iff (c : Char) :
    isRepoChar c = true ↔
      (97 ≤ c.toNat ∧ c.toNat ≤ 122) ∨ (65 ≤ c.toNat ∧ c.toNat ≤ 90) ∨
        (48 ≤ c.toNat ∧ c.toNat ≤ 57) ∨ c.toNat = 45 ∨ c.toNat = 95 ∨ c.toNat = 46 := by
  have hle : ∀ a b : UInt32, a ≤ b ↔ a.toNat ≤ b.toNat := fun _ _ => Iff.rfl
  have hval : c.val.toNat = c.toNat := rfl
  simp only [isRepoChar, Char.isAlphanum, Char.isAlpha, Char.isUpper, Char.isLower,
    Char.isDigit, Bool.or_eq_true, Bool.and_eq_true, decide_eq_true_eq, ge_iff_le,
    char_eq_iff_toNat, hle, hval]
  have e1 : '-'.toNat = 45 := rfl
  have e2 : '_'.toNat = 95 := rfl
  have e3 : '.'.toNat = 46 := rfl
  have n1 : (65 : UInt32).toNat = 65 := rfl
  have n2 : (90 : UInt32).toNat = 90 := rfl
  have n3 : (97 : UInt32).toNat = 97 := rfl
  have n4 : (122 : UInt32).toNat = 122 := rfl
  have n5 : (48 : UInt32).toNat = 48 := rfl
  have n6 : (57 : UInt32).toNat = 57 := rfl
  rw [e1, e2, e3, n1, n2, n3, n4, n5, n6]
  tauto

theorem foldRune_eq_of_small (x a : Char) (ha : a.toNat < 65) (h : foldRune x = foldRune a) :
    x = a := by
  have h' := congrArg Char.toNat h
  rw [foldRune_toNat, foldRune_toNat] at h'
  rw [char_eq_iff_toNat]
  split_ifs at h' <;> omega

/-! ### Soundness of the matcher -/

theorem plusRun_sound {R : Type} (cl : Char → Bool) (k : Pos → Option R) (res : R) :
    ∀ xs, plusRun cl k xs = some res →
      ∃ m x rest, xs = m ++ x :: rest ∧ (∀ y ∈ m ++ [x], cl y = true) ∧
        k ⟨some x, rest⟩ = some res := by
  intro xs
  induction xs with
  | nil => intro h; simp [plusRun] at h
  | cons x xs ih =>
    intro h
    unfold plusRun at h
    split at h
    · rename_i hx
      split at h
      · rename_i r hr
        cases h
        obtain ⟨m, y, rest, hxs, hall, hk⟩ := ih hr
        refine ⟨x :: m, y, rest, by simp [hxs], ?_, hk⟩
        intro z hz
        simp only [List.cons_append, List.mem_cons] at hz
        rcases hz with rfl | hz
        · exact hx
        · exact hall z hz
      · exact ⟨[], x, xs, rfl, by simpa using hx, h⟩
    · cases h

theorem Regex.run_sound {R : Type} (re : Regex) :
    ∀ (p : Pos) (c : Caps) (k : Pos → Caps → Option R) (res : R),
      re.run p c k = some res → ∃ q d, re.Matches p c q d ∧ k q d = some res := by
  induction re with
  | empty => intro p c k res h; exact ⟨p, c, ⟨rfl, rfl⟩, h⟩
  | lit a =>
    intro p c k res h
    unfold Regex.run at h
    split at h
    · rename_i x xs hp
      split at h
      · rename_i hx
        exact ⟨⟨some x, xs⟩, c, ⟨x, hx, hp, rfl, rfl⟩, h⟩
      · cases h
    · cases h
  | plus cl =>
    intro p c k res h
    obtain ⟨m, x, rest, hxs, hall, hk⟩ := plusRun_sound cl _ res _ h
    exact ⟨⟨some x, rest⟩, c, ⟨m, x, hall, hxs, rfl, rfl⟩, hk⟩
  | wordBoundary =>
    intro p c k res h
    unfold Regex.run at h
    split at h
    · rename_i hb
      exact ⟨p, c, ⟨hb, rfl, rfl⟩, h⟩
    · cases h
  | seq a b iha ihb =>
    intro p c k res h
    obtain ⟨r, e, hm1, hk1⟩ := iha p c _ res h
    obtain ⟨q, d, hm2, hk2⟩ := ihb r e k res hk1
    exact ⟨q, d, ⟨r, e, hm1, hm2⟩, hk2⟩
  | alt a b iha ihb =>
    intro p c k res h
    unfold Regex.run at h
    split at h
    · rename_i r hr
      cases h
      obtain ⟨q, d, hm, hk⟩ := iha p c k _ hr
      exact ⟨q, d, Or.inl hm, hk⟩
    · obtain ⟨q, d, hm, hk⟩ := ihb p c k _ h
      exact ⟨q, d, Or.inr hm, hk⟩
  | opt a iha =>
    intro p c k res h
    unfold Regex.run at h
    split at h
    · rename_i r hr
      cases h
      obtain ⟨q, d, hm, hk⟩ := iha p c k _ hr
      exact ⟨q, d, Or.inl hm, hk⟩
    · exact ⟨p, c, Or.inr ⟨rfl, rfl⟩, h⟩
  | group i a iha =>
    intro p c k res h
    obtain ⟨q, d, hm, hk⟩ := iha p c _ res h
    exact ⟨q, _, ⟨d, hm, rfl⟩, hk⟩

/-! ### Shape of the matches of keywordPattern -/

theorem capText_append (m r : List Char) : capText (some (m ++ r, r)) = m := by
  simp [capText]

theorem str_Matches (w : List Char) :
    ∀ (p : Pos) (c : Caps) (q : Pos) (d : Caps), (Regex.str w).Matches p c q d →
      ∃ kw, kw.map foldRune = w.map foldRune ∧ p.rest = kw ++ q.rest ∧ d = c := by
  induction w with
  | nil =>
    intro p c q d h
    obtain ⟨rfl, rfl⟩ := h
    exact ⟨[], rfl, rfl, rfl⟩
  | cons a w ih =>
    intro p c q d h
    cases w with
    | nil =>
      obtain ⟨x, hx, hp, _, hd⟩ := h
      exact ⟨[x], by simp [hx], by simp [hp], hd⟩
    | cons b w =>
      obtain ⟨r, e, ⟨x, hx, hp, _, he⟩, h2⟩ := h
      obtain ⟨kw, hkw, hr, hd⟩ := ih r e q d h2
      exact ⟨x :: kw, by simp [hx, hkw], by simp [hp, hr], by rw [hd, he]⟩

theorem keywords_folded : ∀ w ∈ keywords, w.data.map foldRune = w.data := by decide

theorem keywordAlternation_Matches (p : Pos) (c : Caps) (q : Pos) (d : Caps)
    (h : keywordAlternation.Matches p c q d) :
    ∃ kw, isKeyword kw ∧ p.rest = kw ++ q.rest ∧ d = c := by
  have key : ∀ w ∈ keywords, (Regex.str w.data).Matches p c q d →
      ∃ kw, isKeyword kw ∧ p.rest = kw ++ q.rest ∧ d = c := by
    intro w hw hm
    obtain ⟨kw, hkw, hp, hd⟩ := str_Matches _ p c q d hm
    refine ⟨kw, ⟨w, hw, ?_⟩, hp, hd⟩
    rw [isCaseVariant, hkw, keywords_folded w hw]
  unfold keywordAlternation at h
  rcases h with h | h | h | h | h | h | h | h | h
  · exact key "close" (by decide) h
  · exact key "closes" (by decide) h
  · exact key "closed" (by decide) h
  · exact key "fix" (by decide) h
  · exact key "fixes" (by decide) h
  · exact key "fixed" (by decide) h
  · exact key "resolve" (by decide) h
  · exact key "resolves" (by decide) h
  · exact key "resolved" (by decide) h

theorem plus_Matches (cl : Char → Bool) (p : Pos) (c : Caps) (q : Pos) (d : Caps)
    (h : (Regex.plus cl).Matches p c q d) :
    ∃ m, m ≠ [] ∧ (∀ y ∈ m, cl y = true) ∧ p.rest = m ++ q.rest ∧ q.prev = m.getLast? ∧
      d = c := by
  obtain ⟨m, x, hall, hp, hq, hd⟩ := h
  exact ⟨m ++ [x], by simp, hall, by simp [hp], by simp [hq], hd⟩

theorem ownerRepoGroup_Matches (p : Pos) (c : Caps) (q : Pos) (d : Caps)
    (h : ownerRepoGroup.Matches p c q d) :
    ∃ a b, a ≠ [] ∧ b ≠ [] ∧ (∀ y ∈ a, isDot y = true) ∧ (∀ y ∈ b, isDot y = true) ∧
      p.rest = (a ++ '/' :: b) ++ q.rest ∧ d = c.set 2 (some (p.rest, q.rest)) := by
  obtain ⟨e, ⟨r1, e1, h1, r2, e2, ⟨x, hx, hr1, -, he2⟩, h3⟩, hd⟩ := h
  obtain ⟨a, ha, hadot, hpa, -, he1⟩ := plus_Matches _ _ _ _ _ h1
  obtain ⟨b, hb, hbdot, hpb, -, he⟩ := plus_Matches _ _ _ _ _ h3
  have hx' : x = '/' := foldRune_eq_of_small x '/' (by decide) hx
  subst hx'
  refine ⟨a, b, ha, hb, hadot, hbdot, ?_, ?_⟩
  · rw [hpa, hr1, hpb]; simp
  · rw [hd, he, he2, he1]

theorem keywordTail_Matches (p : Pos) (c : Caps) (q : Pos) (d : Caps)
    (h : keywordTail.Matches p c q d) :
    ∃ g dg, isOwnerRepoCapture g ∧ dg ≠ [] ∧ (∀ y ∈ dg, isDigit y = true) ∧
      p.rest = g ++ '#' :: (dg ++ q.rest) ∧ q.prev = dg.getLast? ∧ atWordBoundary q = true ∧
      d = (if g = [] then c else c.set 2 (some (g ++ '#' :: (dg ++ q.rest), '#' :: (dg ++ q.rest)))).set 3
        (some (dg ++ q.rest, q.rest)) := by
  obtain ⟨p1, c1, hopt, p2, c2, ⟨x, hx, hp1, -, hc2⟩, p3, c3, ⟨c3', hdig, hc3⟩, hb, hq, hd⟩ := h
  have hx' : x = '#' := foldRune_eq_of_small x '#' (by decide) hx
  subst hx'
  subst hq
  obtain ⟨dg, hdg, hdigit, hp2, hprev, hc3'⟩ := plus_Matches _ _ _ _ _ hdig
  rcases hopt with hgrp | ⟨hp, hc⟩
  · obtain ⟨a, b, ha, hb', hadot, hbdot, hp, hc1⟩ := ownerRepoGroup_Matches _ _ _ _ hgrp
    refine ⟨a ++ '/' :: b, dg, Or.inr ⟨a, b, ha, hb', rfl, hadot, hbdot⟩, hdg, hdigit, ?_,
      hprev, hb, ?_⟩
    · rw [hp, hp1, hp2]
    · have hne : a ++ '/' :: b ≠ [] := by simp
      rw [if_neg hne, hd, hc3, hc3', hc2, hc1, hp, hp1, hp2]
  · subst hp
    refine ⟨[], dg, Or.inl rfl, hdg, hdigit, ?_, hprev, hb, ?_⟩
    · rw [hp1, hp2]; rfl
    · rw [if_pos rfl, hd, hc3, hc3', hc2, hc, hp2]

/-- Shape of every match of `keywordPattern`: a keyword in some letter case, whitespace, the
optional owner/repo text, `#` and digits; and the four strings of the match. -/
theorem exec_keywordPattern (p q : Pos) (caps : Caps)
    (h : keywordPattern.exec keywordPattern.NumSubexp p = some (q, caps)) :
    ∃ kw ws g dg, isKeyword kw ∧ ws ≠ [] ∧ (∀ y ∈ ws, isSpace y = true) ∧
      isOwnerRepoCapture g ∧ dg ≠ [] ∧ (∀ y ∈ dg, isDigit y = true) ∧
      p.rest = kw ++ (ws ++ (g ++ '#' :: (dg ++ q.rest))) ∧
      submatch caps = [String.mk (kw ++ (ws ++ (g ++ '#' :: dg))), String.mk kw, String.mk g,
        String.mk dg] := by
  obtain ⟨q', d, hm, hk⟩ := Regex.run_sound _ _ _ _ _ h
  simp only [Option.some.injEq, Prod.mk.injEq] at hk
  obtain ⟨hq, hcaps⟩ := hk
  subst hq
  unfold keywordPattern at hm
  obtain ⟨p1, c1, ⟨-, hp1, hc1⟩, p2, c2, ⟨c1', hkw, hc2⟩, p3, c3, hsp, htail⟩ := hm
  subst hp1
  obtain ⟨kw, hkwk, hpkw, hc1'⟩ := keywordAlternation_Matches _ _ _ _ hkw
  obtain ⟨ws, hws, hspace, hp2, -, hc3⟩ := plus_Matches _ _ _ _ _ hsp
  obtain ⟨g, dg, hg, hdg, hdigit, hp3, -, -, hd⟩ := keywordTail_Matches _ _ _ _ htail
  have hrest : p1.rest = kw ++ (ws ++ (g ++ '#' :: (dg ++ q'.rest))) := by
    rw [hpkw, hp2, hp3]
  refine ⟨kw, ws, g, dg, hkwk, hws, hspace, hg, hdg, hdigit, hrest, ?_⟩
  have e0 : capText (some (p1.rest, q'.rest)) = kw ++ (ws ++ (g ++ '#' :: dg)) := by
    have : p1.rest = (kw ++ (ws ++ (g ++ '#' :: dg))) ++ q'.rest := by
      rw [hrest]; simp
    rw [this, capText_append]
  have e1 : capText (some (p1.rest, p2.rest)) = kw := by
    rw [hpkw, capText_append]
  have e2 : capText (some (g ++ '#' :: (dg ++ q'.rest), '#' :: (dg ++ q'.rest))) = g :=
    capText_append _ _
  have e3 : capText (some (dg ++ q'.rest, q'.rest)) = dg := capText_append _ _
  rw [← hcaps, hd, hc3, hc2, hc1', hc1]
  by_cases hgn : g = []
  · subst hgn
    have e4 : capText none = [] := rfl
    rw [if_pos rfl]
    simp [submatch, keywordPattern.NumSubexp, List.replicate, e0, e1, e3, e4]
  · rw [if_neg hgn]
    simp [submatch, keywordPattern.NumSubexp, List.replicate, e0, e1, e2, e3]

/-! ### Matches found in a body, and their resolution -/

/-- Every match that `allMatches` delivers comes from one anchored attempt at a position of the
text. -/
theorem allMatches_mem (re : Regex) (n : Nat) :
    ∀ (xs : List Char) (skip : Nat) (atPrevEnd : Bool) (prev : Option Char) (m : List String),
      m ∈ re.allMatches n xs skip atPrevEnd prev →
      ∃ pre p q c, xs = pre ++ p.rest ∧ re.exec n p = some (q, c) ∧ m = submatch c := by
  intro xs
  induction xs with
  | nil =>
    intro skip atPrevEnd prev m hm
    cases skip with
    | zero =>
      unfold Regex.allMatches at hm
      split at hm
      · rename_i q c hexec
        split at hm
        · simp at hm
        · simp only [List.mem_singleton] at hm
          exact ⟨[], ⟨prev, []⟩, q, c, rfl, hexec, hm⟩
      · simp at hm
    | succ k => simp [Regex.allMatches] at hm
  | cons x xs ih =>
    intro skip atPrevEnd prev m hm
    have lift : ∀ {skip' pe' prev'}, m ∈ re.allMatches n xs skip' pe' prev' →
        ∃ pre p q c, x :: xs = pre ++ p.rest ∧ re.exec n p = some (q, c) ∧ m = submatch c := by
      intro skip' pe' prev' h'
      obtain ⟨pre, p, q, c, hxs, hexec, hmc⟩ := ih _ _ _ _ h'
      exact ⟨x :: pre, p, q, c, by simp [hxs], hexec, hmc⟩
    cases skip with
    | succ k =>
      unfold Regex.allMatches at hm
      exact lift hm
    | zero =>
      unfold Regex.allMatches at hm
      split at hm
      · exact lift hm
      · rename_i q c hexec
        have here : ∃ pre p q c', x :: xs = pre ++ p.rest ∧ re.exec n p = some (q, c') ∧
            submatch c = submatch c' := ⟨[], ⟨prev, x :: xs⟩, q, c, rfl, hexec, rfl⟩
        simp only at hm
        split at hm
        · split at hm
          · exact lift hm
          · rcases List.mem_cons.mp hm with rfl | hm
            · exact here
            · exact lift hm
        · rcases List.mem_cons.mp hm with rfl | hm
          · exact here
          · exact lift hm

theorem splitRunes_ne_nil (sep : Char) (xs : List Char) : splitRunes sep xs ≠ [] := by
  cases xs with
  | nil => simp [splitRunes]
  | cons c cs =>
    unfold splitRunes
    split
    · simp
    · split <;> simp

theorem splitRunes_length_append (sep : Char) (a b : List Char) :
    2 ≤ (splitRunes sep (a ++ sep :: b)).length := by
  induction a with
  | nil =>
    have := List.length_pos.mpr (splitRunes_ne_nil sep b)
    simp [splitRunes]
    omega
  | cons c a ih =>
    simp only [List.cons_append]
    unfold splitRunes
    split
    · simp; omega
    · split
      · rename_i t ts heq
        rw [heq] at ih
        simpa using ih
      · rename_i heq
        exact absurd heq (splitRunes_ne_nil _ _)

/-- No match of `keywordPattern` makes `hasIssueMagicString` index out of range: with the
strings of a match, `resolveReference` returns a reference. -/
theorem resolveReference_match (pullRequest : PullRequest) (w kw g dg : List Char)
    (hg : isOwnerRepoCapture g) :
    ∃ org, resolveReference pullRequest [String.mk w, String.mk kw, String.mk g, String.mk dg]
      = some (org, (Atoi (String.mk dg)).1) ∧ (g = [] → org = pullRequest.Repository) := by
  rcases hg with rfl | ⟨a, b, -, -, rfl, -, -⟩
  · exact ⟨pullRequest.Repository, by simp [resolveReference], fun _ => rfl⟩
  · have hlen := splitRunes_length_append '/' a b
    have hpos : (String.mk (a ++ '/' :: b)).length > 0 := by
      simp [String.length]
    unfold resolveReference
    simp only [List.getElem?_cons_succ, List.getElem?_cons_zero, hpos, if_true]
    have h1 : ∃ t1, (Split (String.mk (a ++ '/' :: b)) '/')[1]? = some t1 := by
      have : 1 < (Split (String.mk (a ++ '/' :: b)) '/').length := by
        simp only [Split, List.length_map]; omega
      exact ⟨_, List.getElem?_eq_getElem this⟩
    have h0 : ∃ t0, (Split (String.mk (a ++ '/' :: b)) '/')[0]? = some t0 := by
      have : 0 < (Split (String.mk (a ++ '/' :: b)) '/').length := by
        simp only [Split, List.length_map]; omega
      exact ⟨_, List.getElem?_eq_getElem this⟩
    obtain ⟨t1, ht1⟩ := h1
    obtain ⟨t0, ht0⟩ := h0
    refine ⟨⟨t0, t1⟩, ?_, ?_⟩
    · simp only [ht1, ht0]
    · intro h; simp at h

/-- The strings of every match found in a body resolve to a reference. -/
theorem resolveReference_of_mem (pullRequest : PullRequest) (body : String) (m : List String)
    (hm : m ∈ keywordPattern.FindAllStringSubmatch keywordPattern.NumSubexp body) :
    ∃ ref, resolveReference pullRequest m = some ref := by
  obtain ⟨pre, p, q, c, -, hexec, rfl⟩ := allMatches_mem _ _ _ _ _ _ _ hm
  obtain ⟨kw, ws, g, dg, -, -, -, hg, -, -, -, hsub⟩ := exec_keywordPattern _ _ _ hexec
  rw [hsub]
  obtain ⟨org, h, -⟩ := resolveReference_match pullRequest _ kw g dg hg
  exact ⟨_, h⟩

/-- On matches that all resolve, the loop of `hasIssueMagicString` returns, and it returns
`true` exactly when the lookup of some resolved reference yields an issue. -/
theorem lookup_spec (v : issueValidator) (pullRequest : PullRequest) :
    ∀ ms : List (List String), (∀ m ∈ ms, ∃ ref, resolveReference pullRequest m = some ref) →
      ∃ b, v.lookup pullRequest ms = some b ∧
        (b = true ↔ ∃ org num, some (org, num) ∈ ms.map (resolveReference pullRequest) ∧
          (v.client.GetIssue org num).1 ≠ none) := by
  intro ms
  induction ms with
  | nil => intro _; exact ⟨false, rfl, by simp⟩
  | cons m ms ih =>
    intro hall
    obtain ⟨⟨org, num⟩, href⟩ := hall m (List.mem_cons_self _ _)
    obtain ⟨b, hb, hiff⟩ := ih (fun m' hm' => hall m' (List.mem_cons_of_mem _ hm'))
    unfold issueValidator.lookup
    rw [href]
    simp only
    cases hget : (v.client.GetIssue org num).1 with
    | some issue =>
      refine ⟨true, rfl, ?_⟩
      simp only [true_iff]
      exact ⟨org, num, by simp [href], by simp [hget]⟩
    | none =>
      refine ⟨b, hb, ?_⟩
      rw [hiff]
      constructor
      · rintro ⟨o, k, hmem, hne⟩
        exact ⟨o, k, by simp only [List.map_cons, List.mem_cons]; exact Or.inr hmem, hne⟩
      · rintro ⟨o, k, hmem, hne⟩
        simp only [List.map_cons, List.mem_cons] at hmem
        rcases hmem with heq | hmem
        · rw [href] at heq
          simp only [Option.some.injEq, Prod.mk.injEq] at heq
          obtain ⟨rfl, rfl⟩ := heq
          exact absurd hget hne
        · exact ⟨o, k, hmem, hne⟩

/-- Method `hasIssueMagicString` returns for every body, and returns `true` exactly when the
lookup of some extracted reference yields an issue. -/
theorem hasIssueMagicString_spec (v : issueValidator) (pullRequest : PullRequest) :
    ∃ b, v.hasIssueMagicString pullRequest = some b ∧
      (b = true ↔ ∃ org num, some (org, num) ∈ extractReferences pullRequest ∧
        (v.client.GetIssue org num).1 ≠ none) :=
  lookup_spec v pullRequest _ (fun m hm => resolveReference_of_mem pullRequest _ m hm)

theorem hasOwnReference_iff (pullRequest : PullRequest) (references : List Meta) :
    hasOwnReference pullRequest references = true ↔
      ∃ r ∈ references, r.joined = pullRequest.Repository.joined := by
  induction references with
  | nil => simp [hasOwnReference]
  | cons r rs ih =>
    unfold hasOwnReference
    split
    · rename_i h
      simp [h]
    · rename_i h
      rw [ih]
      simp [h]

/-! ### The owner/name strings of the pre-check -/

theorem append_sep_inj (sep : Char) :
    ∀ (a c b d : List Char), sep ∉ a → sep ∉ c → a ++ sep :: b = c ++ sep :: d →
      a = c ∧ b = d := by
  intro a
  induction a with
  | nil =>
    intro c b d _ hc h
    cases c with
    | nil => simpa using h
    | cons y c =>
      simp only [List.nil_append, List.cons_append, List.cons.injEq] at h
      exact absurd (h.1 ▸ List.mem_cons_self _ _) hc
  | cons x a ih =>
    intro c b d ha hc h
    cases c with
    | nil =>
      simp only [List.nil_append, List.cons_append, List.cons.injEq] at h
      exact absurd (h.1 ▸ List.mem_cons_self _ _) ha
    | cons y c =>
      simp only [List.cons_append, List.cons.injEq] at h
      obtain ⟨hxy, hrest⟩ := h
      have := ih c b d (fun hm => ha (List.mem_cons_of_mem _ hm))
        (fun hm => hc (List.mem_cons_of_mem _ hm)) hrest
      exact ⟨by rw [hxy, this.1], this.2⟩

theorem append_sep_inj_right (sep : Char) (a c b d : List Char) (hb : sep ∉ b) (hd : sep ∉ d)
    (h : a ++ sep :: b = c ++ sep :: d) : a = c ∧ b = d := by
  have hrev := congrArg List.reverse h
  simp only [List.reverse_append, List.reverse_cons, List.append_assoc,
    List.singleton_append] at hrev
  have := append_sep_inj sep b.reverse d.reverse a.reverse c.reverse
    (by simpa using hb) (by simpa using hd) hrev
  exact ⟨List.reverse_injective this.2, List.reverse_injective this.1⟩

theorem joined_data (m : Meta) : m.joined.data = m.Owner.data ++ '/' :: m.Name.data := by
  simp [Meta.joined]

/-- For repositories whose owners (or whose names) contain no `/`, the "owner/name" strings are
equal exactly when the owners and the names are. -/
theorem joined_eq_iff (r m : Meta)
    (h : ('/' ∉ r.Owner.data ∧ '/' ∉ m.Owner.data) ∨ ('/' ∉ r.Name.data ∧ '/' ∉ m.Name.data)) :
    r.joined = m.joined ↔ r.Owner = m.Owner ∧ r.Name = m.Name := by
  constructor
  · intro hj
    have hd : r.Owner.data ++ '/' :: r.Name.data = m.Owner.data ++ '/' :: m.Name.data := by
      rw [← joined_data, ← joined_data, hj]
    have : r.Owner.data = m.Owner.data ∧ r.Name.data = m.Name.data := by
      rcases h with ⟨h1, h2⟩ | ⟨h1, h2⟩
      · exact append_sep_inj '/' _ _ _ _ h1 h2 hd
      · exact append_sep_inj_right '/' _ _ _ _ h1 h2 hd
    exact ⟨String.ext this.1, String.ext this.2⟩
  · rintro ⟨h1, h2⟩
    simp [Meta.joined, h1, h2]

/-! ### The result of the issue validator -/

/-- With the rule enabled and a successful native lookup, `IsValid` returns, and its result is
the passing one exactly when an issue is linked, the one carrying `ErrNoIssue` otherwise. -/
theorem IsValid_of_references (K : Constants) (v : issueValidator) (pullRequest : PullRequest)
    (references : List Meta) (hcfg : v.config.Issue = true)
    (hrefs : v.client.GetIssueReferences pullRequest.Repository pullRequest.Number
      = (references, none)) :
    (v.IsValid K pullRequest
        = some { Name := K.IssueValidatorName, Active := true, Result := none }
      ↔ isLinked v pullRequest references) ∧
    (¬ isLinked v pullRequest references →
      v.IsValid K pullRequest
        = some { Name := K.IssueValidatorName, Active := true, Result := some K.ErrNoIssue }) := by
  obtain ⟨b, hb, hiff⟩ := hasIssueMagicString_spec v pullRequest
  have hown := hasOwnReference_iff pullRequest references
  unfold isLinked
  unfold issueValidator.IsValid
  simp only [hcfg, hrefs, Bool.not_true, Bool.false_eq_true, if_false, hb]
  cases hO : hasOwnReference pullRequest references with
  | true =>
    have h1 := hown.mp hO
    simp [h1]
  | false =>
    have h1 : ¬ ∃ r ∈ references, r.joined = pullRequest.Repository.joined := by
      intro h; rw [← hown, hO] at h; cases h
    cases b with
    | true =>
      have h2 := hiff.mp rfl
      simp only [Bool.false_eq_true, if_false, true_iff]
      exact ⟨Or.inr h2, fun hn => absurd (Or.inr h2) hn⟩
    | false =>
      have h2 : ¬ ∃ org num, some (org, num) ∈ extractReferences pullRequest ∧
          (v.client.GetIssue org num).1 ≠ none := by
        intro h; have := hiff.mpr h; cases this
      simp only [Bool.false_eq_true, if_false]
      constructor
      · constructor
        · intro h; simp at h
        · rintro (h | h)
          · exact absurd h h1
          · exact absurd h h2
      · intro _; trivial


/-! ### Bodies without keyword, and the loop over the commits -/

/-- A body without any closing keyword has no match of `keywordPattern`. -/
theorem FindAllStringSubmatch_eq_nil (body : String) (h : ¬ containsKeyword body.data) :
    keywordPattern.FindAllStringSubmatch keywordPattern.NumSubexp body = [] := by
  rw [List.eq_nil_iff_forall_not_mem]
  intro m hm
  obtain ⟨pre, p, q, c, hbody, hexec, -⟩ := allMatches_mem _ _ _ _ _ _ _ hm
  obtain ⟨kw, ws, g, dg, hkw, -, -, -, -, -, hrest, -⟩ := exec_keywordPattern _ _ _ hexec
  exact h ⟨pre, kw, ws ++ (g ++ '#' :: (dg ++ q.rest)), hkw, by rw [hbody, hrest]; simp⟩

theorem check_spec (v : commitValidator) (pattern : String → Bool) :
    ∀ commits : List RepositoryCommit,
      (v.check pattern commits).Name = v.Name ∧
      ((v.check pattern commits).Result = none ↔
        ∀ c ∈ commits, pattern (Commit.GetMessage c.Commit) = true) ∧
      (∀ pre c post, commits = pre ++ c :: post →
        (∀ x ∈ pre, pattern (Commit.GetMessage x.Commit) = true) →
        pattern (Commit.GetMessage c.Commit) = false →
        (v.check pattern commits).Result = some (commitError (Commit.GetSHA c.Commit))) := by
  intro commits
  induction commits with
  | nil =>
    refine ⟨rfl, by simp [commitValidator.check], ?_⟩
    intro pre c post h
    simp at h
  | cons x xs ih =>
    obtain ⟨ihn, ihr, ihf⟩ := ih
    unfold commitValidator.check
    cases hx : pattern (Commit.GetMessage x.Commit) with
    | false =>
      simp only [Bool.not_false, if_true]
      refine ⟨trivial, ?_, ?_⟩
      · simp [hx]
      · intro pre c post h hpre hc
        cases pre with
        | nil =>
          simp only [List.nil_append, List.cons.injEq] at h
          rw [← h.1]
        | cons y pre =>
          simp only [List.cons_append, List.cons.injEq] at h
          have := hpre y (List.mem_cons_self _ _)
          rw [← h.1, hx] at this
          cases this
    | true =>
      simp only [Bool.not_true, Bool.false_eq_true, if_false]
      refine ⟨ihn, ?_, ?_⟩
      · rw [ihr]; simp [hx]
      · intro pre c post h hpre hc
        cases pre with
        | nil =>
          simp only [List.nil_append, List.cons.injEq] at h
          rw [h.1, hc] at hx
          cases hx
        | cons y pre =>
          simp only [List.cons_append, List.cons.injEq] at h
          exact ihf pre c post h.2 (fun z hz => hpre z (List.mem_cons_of_mem _ hz)) hc

/-! ### The keyword group on a keyword followed by whitespace -/

theorem foldRune_letter_not_space (x a : Char) (h : foldRune x = a) (ha : 97 ≤ a.toNat) :
    isSpace x = false := by
  have h' := congrArg Char.toNat h
  rw [foldRune_toNat] at h'
  cases hs : isSpace x with
  | false => rfl
  | true =>
    rw [isSpace_iff] at hs
    split_ifs at h' <;> omega

theorem foldRune_space_ne (w a : Char) (hw : isSpace w = true) (ha : 97 ≤ a.toNat) :
    ¬ (foldRune w = foldRune a) := by
  intro h
  have h' := congrArg Char.toNat h
  rw [foldRune_toNat, foldRune_toNat] at h'
  rw [isSpace_iff] at hw
  split_ifs at h' <;> omega

theorem foldRune_letter_word (x a : Char) (h : foldRune x = a) (ha : 97 ≤ a.toNat)
    (ha' : a.toNat ≤ 122) (hs : a.toNat ≠ 115) (hk : a.toNat ≠ 107) : isWordChar x = true := by
  have h' := congrArg Char.toNat h
  rw [foldRune_toNat] at h'
  rw [isWordChar_iff]
  split_ifs at h' <;> omega

theorem plusRun_cons_false {R : Type} (cl : Char → Bool) (k : Pos → Option R) (x : Char)
    (xs : List Char) (h : cl x = false) : plusRun cl k (x :: xs) = none := by
  simp [plusRun, h]

theorem option_match_self {α : Type} (o : Option α) :
    (match o with
      | some r => some r
      | none => none) = o := by
  cases o <;> rfl

/-- The letters of the keywords are their own fold representatives. -/
theorem foldRune_letters :
    foldRune 'c' = 'c' ∧ foldRune 'd' = 'd' ∧ foldRune 'e' = 'e' ∧ foldRune 'f' = 'f' ∧
    foldRune 'i' = 'i' ∧ foldRune 'l' = 'l' ∧ foldRune 'o' = 'o' ∧ foldRune 'r' = 'r' ∧
    foldRune 's' = 's' ∧ foldRune 'v' = 'v' ∧ foldRune 'x' = 'x' := by
  decide

theorem keyword_run_close {R : Type} (c1 c2 c3 c4 c5 w : Char) (h1 : foldRune c1 = 'c')
    (h2 : foldRune c2 = 'l') (h3 : foldRune c3 = 'o') (h4 : foldRune c4 = 's')
    (h5 : foldRune c5 = 'e')
    (hw : isSpace w = true) (prev : Option Char) (rest : List Char) (c : Caps) (T : Regex)
    (k : Pos → Caps → Option R) :
    (Regex.seq (.group 1 keywordAlternation) (.seq (.plus isSpace) T)).run
        ⟨prev, c1 :: c2 :: c3 :: c4 :: c5 :: w :: rest⟩ c k
      = (Regex.seq (.plus isSpace) T).run ⟨some c5, w :: rest⟩
          (c.set 1 (some (c1 :: c2 :: c3 :: c4 :: c5 :: w :: rest, w :: rest))) k := by
  obtain ⟨fc, fd, fe, ff, fi, fl, fo, fr, fs, fv, fx⟩ := foldRune_letters
  have s1 : isSpace c1 = false := foldRune_letter_not_space _ _ h1 (by decide)
  have s2 : isSpace c2 = false := foldRune_letter_not_space _ _ h2 (by decide)
  have s3 : isSpace c3 = false := foldRune_letter_not_space _ _ h3 (by decide)
  have s4 : isSpace c4 = false := foldRune_letter_not_space _ _ h4 (by decide)
  have s5 : isSpace c5 = false := foldRune_letter_not_space _ _ h5 (by decide)
  have w1 : ¬ (foldRune w = 's') := fs ▸ foldRune_space_ne w 's' hw (by decide)
  have w2 : ¬ (foldRune w = 'd') := fd ▸ foldRune_space_ne w 'd' hw (by decide)
  have w3 : ¬ (foldRune w = 'e') := fe ▸ foldRune_space_ne w 'e' hw (by decide)
  simp only [Regex.run, Regex.str, keywordAlternation, plusRun_cons_false, if_true, if_false,
    Char.reduceEq, hw, w1, w2, w3, h1, h2, h3, h4, h5, s1, s2, s3, s4, s5,
    fc, fd, fe, ff, fi, fl, fo, fr, fs, fv, fx]
  try exact option_match_self _

theorem keyword_run_closes {R : Type} (c1 c2 c3 c4 c5 c6 w : Char) (h1 : foldRune c1 = 'c')
    (h2 : foldRune c2 = 'l') (h3 : foldRune c3 = 'o') (h4 : foldRune c4 = 's')
    (h5 : foldRune c5 = 'e') (h6 : foldRune c6 = 's')
    (hw : isSpace w = true) (prev : Option Char) (rest : List Char) (c : Caps) (T : Regex)
    (k : Pos → Caps → Option R) :
    (Regex.seq (.group 1 keywordAlternation) (.seq (.plus isSpace) T)).run
        ⟨prev, c1 :: c2 :: c3 :: c4 :: c5 :: c6 :: w :: rest⟩ c k
      = (Regex.seq (.plus isSpace) T).run ⟨some c6, w :: rest⟩
          (c.set 1 (some (c1 :: c2 :: c3 :: c4 :: c5 :: c6 :: w :: rest, w :: rest))) k := by
  obtain ⟨fc, fd, fe, ff, fi, fl, fo, fr, fs, fv, fx⟩ := foldRune_letters
  have s1 : isSpace c1 = false := foldRune_letter_not_space _ _ h1 (by decide)
  have s2 : isSpace c2 = false := foldRune_letter_not_space _ _ h2 (by decide)
  have s3 : isSpace c3 = false := foldRune_letter_not_space _ _ h3 (by decide)
  have s4 : isSpace c4 = false := foldRune_letter_not_space _ _ h4 (by decide)
  have s5 : isSpace c5 = false := foldRune_letter_not_space _ _ h5 (by decide)
  have s6 : isSpace c6 = false := foldRune_letter_not_space _ _ h6 (by decide)
  have w1 : ¬ (foldRune w = 's') := fs ▸ foldRune_space_ne w 's' hw (by decide)
  have w2 : ¬ (foldRune w = 'd') := fd ▸ foldRune_space_ne w 'd' hw (by decide)
  have w3 : ¬ (foldRune w = 'e') := fe ▸ foldRune_space_ne w 'e' hw (by decide)
  simp only [Regex.run, Regex.str, keywordAlternation, plusRun_cons_false, if_true, if_false,
    Char.reduceEq, hw, w1, w2, w3, h1, h2, h3, h4, h5, h6, s1, s2, s3, s4, s5, s6,
    fc, fd, fe, ff, fi, fl, fo, fr, fs, fv, fx]
  try exact option_match_self _

theorem keyword_run_closed {R : Type} (c1 c2 c3 c4 c5 c6 w : Char) (h1 : foldRune c1 = 'c')
    (h2 : foldRune c2 = 'l') (h3 : foldRune c3 = 'o') (h4 : foldRune c4 = 's')
    (h5 : foldRune c5 = 'e') (h6 : foldRune c6 = 'd')
    (hw : isSpace w = true) (prev : Option Char) (rest : List Char) (c : Caps) (T : Regex)
    (k : Pos → Caps → Option R) :
    (Regex.seq (.group 1 keywordAlternation) (.seq (.plus isSpace) T)).run
        ⟨prev, c1 :: c2 :: c3 :: c4 :: c5 :: c6 :: w :: rest⟩ c k
      = (Regex.seq (.plus isSpace) T).run ⟨some c6, w :: rest⟩
          (c.set 1 (some (c1 :: c2 :: c3 :: c4 :: c5 :: c6 :: w :: rest, w :: rest))) k := by
  obtain ⟨fc, fd, fe, ff, fi, fl, fo, fr, fs, fv, fx⟩ := foldRune_letters
  have s1 : isSpace c1 = false := foldRune_letter_not_space _ _ h1 (by decide)
  have s2 : isSpace c2 = false := foldRune_letter_not_space _ _ h2 (by decide)
  have s3 : isSpace c3 = false := foldRune_letter_not_space _ _ h3 (by decide)
  have s4 : isSpace c4 = false := foldRune_letter_not_space _ _ h4 (by decide)
  have s5 : isSpace c5 = false := foldRune_letter_not_space _ _ h5 (by decide)
  have s6 : isSpace c6 = false := foldRune_letter_not_space _ _ h6 (by decide)
  have w1 : ¬ (foldRune w = 's') := fs ▸ foldRune_space_ne w 's' hw (by decide)
  have w2 : ¬ (foldRune w = 'd') := fd ▸ foldRune_space_ne w 'd' hw (by decide)
  have w3 : ¬ (foldRune w = 'e') := fe ▸ foldRune_space_ne w 'e' hw (by decide)
  simp only [Regex.run, Regex.str, keywordAlternation, plusRun_cons_false, if_true, if_false,
    Char.reduceEq, hw, w1, w2, w3, h1, h2, h3, h4, h5, h6, s1, s2, s3, s4, s5, s6,
    fc, fd, fe, ff, fi, fl, fo, fr, fs, fv, fx]
  try exact option_match_self _

theorem keyword_run_fix {R : Type} (c1 c2 c3 w : Char) (h1 : foldRune c1 = 'f')
    (h2 : foldRune c2 = 'i') (h3 : foldRune c3 = 'x')
    (hw : isSpace w = true) (prev : Option Char) (rest : List Char) (c : Caps) (T : Regex)
    (k : Pos → Caps → Option R) :
    (Regex.seq (.group 1 keywordAlternation) (.seq (.plus isSpace) T)).run
        ⟨prev, c1 :: c2 :: c3 :: w :: rest⟩ c k
      = (Regex.seq (.plus isSpace) T).run ⟨some c3, w :: rest⟩
          (c.set 1 (some (c1 :: c2 :: c3 :: w :: rest, w :: rest))) k := by
  obtain ⟨fc, fd, fe, ff, fi, fl, fo, fr, fs, fv, fx⟩ := foldRune_letters
  have s1 : isSpace c1 = false := foldRune_letter_not_space _ _ h1 (by decide)
  have s2 : isSpace c2 = false := foldRune_letter_not_space _ _ h2 (by decide)
  have s3 : isSpace c3 = false := foldRune_letter_not_space _ _ h3 (by decide)
  have w1 : ¬ (foldRune w = 's') := fs ▸ foldRune_space_ne w 's' hw (by decide)
  have w2 : ¬ (foldRune w = 'd') := fd ▸ foldRune_space_ne w 'd' hw (by decide)
  have w3 : ¬ (foldRune w = 'e') := fe ▸ foldRune_space_ne w 'e' hw (by decide)
  simp only [Regex.run, Regex.str, keywordAlternation, plusRun_cons_false, if_true, if_false,
    Char.reduceEq, hw, w1, w2, w3, h1, h2, h3, s1, s2, s3,
    fc, fd, fe, ff, fi, fl, fo, fr, fs, fv, fx]
  try exact option_match_self _

theorem keyword_run_fixes {R : Type} (c1 c2 c3 c4 c5 w : Char) (h1 : foldRune c1 = 'f')
    (h2 : foldRune c2 = 'i') (h3 : foldRune c3 = 'x') (h4 : foldRune c4 = 'e')
    (h5 : foldRune c5 = 's')
    (hw : isSpace w = true) (prev : Option Char) (rest : List Char) (c : Caps) (T : Regex)
    (k : Pos → Caps → Option R) :
    (Regex.seq (.group 1 keywordAlternation) (.seq (.plus isSpace) T)).run
        ⟨prev, c1 :: c2 :: c3 :: c4 :: c5 :: w :: rest⟩ c k
      = (Regex.seq (.plus isSpace) T).run ⟨some c5, w :: rest⟩
          (c.set 1 (some (c1 :: c2 :: c3 :: c4 :: c5 :: w :: rest, w :: rest))) k := by
  obtain ⟨fc, fd, fe, ff, fi, fl, fo, fr, fs, fv, fx⟩ := foldRune_letters
  have s1 : isSpace c1 = false := foldRune_letter_not_space _ _ h1 (by decide)
  have s2 : isSpace c2 = false := foldRune_letter_not_space _ _ h2 (by decide)
  have s3 : isSpace c3 = false := foldRune_letter_not_space _ _ h3 (by decide)
  have s4 : isSpace c4 = false := foldRune_letter_not_space _ _ h4 (by decide)
  have s5 : isSpace c5 = false := foldRune_letter_not_space _ _ h5 (by decide)
  have w1 : ¬ (foldRune w = 's') := fs ▸ foldRune_space_ne w 's' hw (by decide)
  have w2 : ¬ (foldRune w = 'd') := fd ▸ foldRune_space_ne w 'd' hw (by decide)
  have w3 : ¬ (foldRune w = 'e') := fe ▸ foldRune_space_ne w 'e' hw (by decide)
  simp only [Regex.run, Regex.str, keywordAlternation, plusRun_cons_false, if_true, if_false,
    Char.reduceEq, hw, w1, w2, w3, h1, h2, h3, h4, h5, s1, s2, s3, s4, s5,
    fc, fd, fe, ff, fi, fl, fo, fr, fs, fv, fx]
  try exact option_match_self _

theorem keyword_run_fixed {R : Type} (c1 c2 c3 c4 c5 w : Char) (h1 : foldRune c1 = 'f')
    (h2 : foldRune c2 = 'i') (h3 : foldRune c3 = 'x') (h4 : foldRune c4 = 'e')
    (h5 : foldRune c5 = 'd')
    (hw : isSpace w = true) (prev : Option Char) (rest : List Char) (c : Caps) (T : Regex)
    (k : Pos → Caps → Option R) :
    (Regex.seq (.group 1 keywordAlternation) (.seq (.plus isSpace) T)).run
        ⟨prev, c1 :: c2 :: c3 :: c4 :: c5 :: w :: rest⟩ c k
      = (Regex.seq (.plus isSpace) T).run ⟨some c5, w :: rest⟩
          (c.set 1 (some (c1 :: c2 :: c3 :: c4 :: c5 :: w :: rest, w :: rest))) k := by
  obtain ⟨fc, fd, fe, ff, fi, fl, fo, fr, fs, fv, fx⟩ := foldRune_letters
  have s1 : isSpace c1 = false := foldRune_letter_not_space _ _ h1 (by decide)
  have s2 : isSpace c2 = false := foldRune_letter_not_space _ _ h2 (by decide)
  have s3 : isSpace c3 = false := foldRune_letter_not_space _ _ h3 (by decide)
  have s4 : isSpace c4 = false := foldRune_letter_not_space _ _ h4 (by decide)
  have s5 : isSpace c5 = false := foldRune_letter_not_space _ _ h5 (by decide)
  have w1 : ¬ (foldRune w = 's') := fs ▸ foldRune_space_ne w 's' hw (by decide)
  have w2 : ¬ (foldRune w = 'd') := fd ▸ foldRune_space_ne w 'd' hw (by decide)
  have w3 : ¬ (foldRune w = 'e') := fe ▸ foldRune_space_ne w 'e' hw (by decide)
  simp only [Regex.run, Regex.str, keywordAlternation, plusRun_cons_false, if_true, if_false,
    Char.reduceEq, hw, w1, w2, w3, h1, h2, h3, h4, h5, s1, s2, s3, s4, s5,
    fc, fd, fe, ff, fi, fl, fo, fr, fs, fv, fx]
  try exact option_match_self _

theorem keyword_run_resolve {R : Type} (c1 c2 c3 c4 c5 c6 c7 w : Char) (h1 : foldRune c1 = 'r')
    (h2 : foldRune c2 = 'e') (h3 : foldRune c3 = 's') (h4 : foldRune c4 = 'o')
    (h5 : foldRune c5 = 'l') (h6 : foldRune c6 = 'v') (h7 : foldRune c7 = 'e')
    (hw : isSpace w = true) (prev : Option Char) (rest : List Char) (c : Caps) (T : Regex)
    (k : Pos → Caps → Option R) :
    (Regex.seq (.group 1 keywordAlternation) (.seq (.plus isSpace) T)).run
        ⟨prev, c1 :: c2 :: c3 :: c4 :: c5 :: c6 :: c7 :: w :: rest⟩ c k
      = (Regex.seq (.plus isSpace) T).run ⟨some c7, w :: rest⟩
          (c.set 1 (some (c1 :: c2 :: c3 :: c4 :: c5 :: c6 :: c7 :: w :: rest, w :: rest))) k := by
  obtain ⟨fc, fd, fe, ff, fi, fl, fo, fr, fs, fv, fx⟩ := foldRune_letters
  have s1 : isSpace c1 = false := foldRune_letter_not_space _ _ h1 (by decide)
  have s2 : isSpace c2 = false := foldRune_letter_not_space _ _ h2 (by decide)
  have s3 : isSpace c3 = false := foldRune_letter_not_space _ _ h3 (by decide)
  have s4 : isSpace c4 = false := foldRune_letter_not_space _ _ h4 (by decide)
  have s5 : isSpace c5 = false := foldRune_letter_not_space _ _ h5 (by decide)
  have s6 : isSpace c6 = false := foldRune_letter_not_space _ _ h6 (by decide)
  have s7 : isSpace c7 = false := foldRune_letter_not_space _ _ h7 (by decide)
  have w1 : ¬ (foldRune w = 's') := fs ▸ foldRune_space_ne w 's' hw (by decide)
  have w2 : ¬ (foldRune w = 'd') := fd ▸ foldRune_space_ne w 'd' hw (by decide)
  have w3 : ¬ (foldRune w = 'e') := fe ▸ foldRune_space_ne w 'e' hw (by decide)
  simp only [Regex.run, Regex.str, keywordAlternation, plusRun_cons_false, if_true, if_false,
    Char.reduceEq, hw, w1, w2, w3, h1, h2, h3, h4, h5, h6, h7, s1, s2, s3, s4, s5, s6, s7,
    fc, fd, fe, ff, fi, fl, fo, fr, fs, fv, fx]
  try exact option_match_self _

theorem keyword_run_resolves {R : Type} (c1 c2 c3 c4 c5 c6 c7 c8 w : Char)
    (h1 : foldRune c1 = 'r') (h2 : foldRune c2 = 'e') (h3 : foldRune c3 = 's')
    (h4 : foldRune c4 = 'o') (h5 : foldRune c5 = 'l') (h6 : foldRune c6 = 'v')
    (h7 : foldRune c7 = 'e') (h8 : foldRune c8 = 's')
    (hw : isSpace w = true) (prev : Option Char) (rest : List Char) (c : Caps) (T : Regex)
    (k : Pos → Caps → Option R) :
    (Regex.seq (.group 1 keywordAlternation) (.seq (.plus isSpace) T)).run
        ⟨prev, c1 :: c2 :: c3 :: c4 :: c5 :: c6 :: c7 :: c8 :: w :: rest⟩ c k
      = (Regex.seq (.plus isSpace) T).run ⟨some c8, w :: rest⟩
          (c.set 1 (some (c1 :: c2 :: c3 :: c4 :: c5 :: c6 :: c7 :: c8 :: w :: rest, w :: rest))) k := by
  obtain ⟨fc, fd, fe, ff, fi, fl, fo, fr, fs, fv, fx⟩ := foldRune_letters
  have s1 : isSpace c1 = false := foldRune_letter_not_space _ _ h1 (by decide)
  have s2 : isSpace c2 = false := foldRune_letter_not_space _ _ h2 (by decide)
  have s3 : isSpace c3 = false := foldRune_letter_not_space _ _ h3 (by decide)
  have s4 : isSpace c4 = false := foldRune_letter_not_space _ _ h4 (by decide)
  have s5 : isSpace c5 = false := foldRune_letter_not_space _ _ h5 (by decide)
  have s6 : isSpace c6 = false := foldRune_letter_not_space _ _ h6 (by decide)
  have s7 : isSpace c7 = false := foldRune_letter_not_space _ _ h7 (by decide)
  have s8 : isSpace c8 = false := foldRune_letter_not_space _ _ h8 (by decide)
  have w1 : ¬ (foldRune w = 's') := fs ▸ foldRune_space_ne w 's' hw (by decide)
  have w2 : ¬ (foldRune w = 'd') := fd ▸ foldRune_space_ne w 'd' hw (by decide)
  have w3 : ¬ (foldRune w = 'e') := fe ▸ foldRune_space_ne w 'e' hw (by decide)
  simp only [Regex.run, Regex.str, keywordAlternation, plusRun_cons_false, if_true, if_false,
    Char.reduceEq, hw, w1, w2, w3, h1, h2, h3, h4, h5, h6, h7, h8, s1, s2, s3, s4, s5, s6, s7, s8,
    fc, fd, fe, ff, fi, fl, fo, fr, fs, fv, fx]
  try exact option_match_self _

theorem keyword_run_resolved {R : Type} (c1 c2 c3 c4 c5 c6 c7 c8 w : Char)
    (h1 : foldRune c1 = 'r') (h2 : foldRune c2 = 'e') (h3 : foldRune c3 = 's')
    (h4 : foldRune c4 = 'o') (h5 : foldRune c5 = 'l') (h6 : foldRune c6 = 'v')
    (h7 : foldRune c7 = 'e') (h8 : foldRune c8 = 'd')
    (hw : isSpace w = true) (prev : Option Char) (rest : List Char) (c : Caps) (T : Regex)
    (k : Pos → Caps → Option R) :
    (Regex.seq (.group 1 keywordAlternation) (.seq (.plus isSpace) T)).run
        ⟨prev, c1 :: c2 :: c3 :: c4 :: c5 :: c6 :: c7 :: c8 :: w :: rest⟩ c k
      = (Regex.seq (.plus isSpace) T).run ⟨some c8, w :: rest⟩
          (c.set 1 (some (c1 :: c2 :: c3 :: c4 :: c5 :: c6 :: c7 :: c8 :: w :: rest, w :: rest))) k := by
  obtain ⟨fc, fd, fe, ff, fi, fl, fo, fr, fs, fv, fx⟩ := foldRune_letters
  have s1 : isSpace c1 = false := foldRune_letter_not_space _ _ h1 (by decide)
  have s2 : isSpace c2 = false := foldRune_letter_not_space _ _ h2 (by decide)
  have s3 : isSpace c3 = false := foldRune_letter_not_space _ _ h3 (by decide)
  have s4 : isSpace c4 = false := foldRune_letter_not_space _ _ h4 (by decide)
  have s5 : isSpace c5 = false := foldRune_letter_not_space _ _ h5 (by decide)
  have s6 : isSpace c6 = false := foldRune_letter_not_space _ _ h6 (by decide)
  have s7 : isSpace c7 = false := foldRune_letter_not_space _ _ h7 (by decide)
  have s8 : isSpace c8 = false := foldRune_letter_not_space _ _ h8 (by decide)
  have w1 : ¬ (foldRune w = 's') := fs ▸ foldRune_space_ne w 's' hw (by decide)
  have w2 : ¬ (foldRune w = 'd') := fd ▸ foldRune_space_ne w 'd' hw (by decide)
  have w3 : ¬ (foldRune w = 'e') := fe ▸ foldRune_space_ne w 'e' hw (by decide)
  simp only [Regex.run, Regex.str, keywordAlternation, plusRun_cons_false, if_true, if_false,
    Char.reduceEq, hw, w1, w2, w3, h1, h2, h3, h4, h5, h6, h7, h8, s1, s2, s3, s4, s5, s6, s7, s8,
    fc, fd, fe, ff, fi, fl, fo, fr, fs, fv, fx]
  try exact option_match_self _

/-- After a keyword in any letter case that is followed by a whitespace rune, the only
alternative of the keyword group that lets `\s+` go on is the keyword itself. -/
theorem keyword_space_run {R : Type} (kw : List Char) (hkw : isKeyword kw) (w : Char)
    (hw : isSpace w = true) (prev : Option Char) (rest : List Char) (c : Caps) (T : Regex)
    (k : Pos → Caps → Option R) :
    (Regex.seq (.group 1 keywordAlternation) (.seq (.plus isSpace) T)).run
        ⟨prev, kw ++ w :: rest⟩ c k
      = (Regex.seq (.plus isSpace) T).run ⟨kw.getLast?, w :: rest⟩
          (c.set 1 (some (kw ++ w :: rest, w :: rest))) k := by
  obtain ⟨wd, hwd, hv⟩ := hkw
  simp only [keywords, List.mem_cons, List.mem_singleton, List.not_mem_nil, or_false] at hwd
  rcases hwd with rfl | rfl | rfl | rfl | rfl | rfl | rfl | rfl | rfl
  · have e : ("close" : String).data = ['c', 'l', 'o', 's', 'e'] := rfl
    rw [isCaseVariant, e] at hv
    simp only [List.map_eq_cons_iff, List.map_eq_nil_iff] at hv
    obtain ⟨c1, t1, rfl, h1, c2, t2, rfl, h2, c3, t3, rfl, h3, c4, t4, rfl, h4, c5, t5, rfl,
      h5, rfl⟩ := hv
    exact keyword_run_close c1 c2 c3 c4 c5 w h1 h2 h3 h4 h5 hw prev rest c T k
  · have e : ("closes" : String).data = ['c', 'l', 'o', 's', 'e', 's'] := rfl
    rw [isCaseVariant, e] at hv
    simp only [List.map_eq_cons_iff, List.map_eq_nil_iff] at hv
    obtain ⟨c1, t1, rfl, h1, c2, t2, rfl, h2, c3, t3, rfl, h3, c4, t4, rfl, h4, c5, t5, rfl,
      h5, c6, t6, rfl, h6, rfl⟩ := hv
    exact keyword_run_closes c1 c2 c3 c4 c5 c6 w h1 h2 h3 h4 h5 h6 hw prev rest c T k
  · have e : ("closed" : String).data = ['c', 'l', 'o', 's', 'e', 'd'] := rfl
    rw [isCaseVariant, e] at hv
    simp only [List.map_eq_cons_iff, List.map_eq_nil_iff] at hv
    obtain ⟨c1, t1, rfl, h1, c2, t2, rfl, h2, c3, t3, rfl, h3, c4, t4, rfl, h4, c5, t5, rfl,
      h5, c6, t6, rfl, h6, rfl⟩ := hv
    exact keyword_run_closed c1 c2 c3 c4 c5 c6 w h1 h2 h3 h4 h5 h6 hw prev rest c T k
  · have e : ("fix" : String).data = ['f', 'i', 'x'] := rfl
    rw [isCaseVariant, e] at hv
    simp only [List.map_eq_cons_iff, List.map_eq_nil_iff] at hv
    obtain ⟨c1, t1, rfl, h1, c2, t2, rfl, h2, c3, t3, rfl, h3, rfl⟩ := hv
    exact keyword_run_fix c1 c2 c3 w h1 h2 h3 hw prev rest c T k
  · have e : ("fixes" : String).data = ['f', 'i', 'x', 'e', 's'] := rfl
    rw [isCaseVariant, e] at hv
    simp only [List.map_eq_cons_iff, List.map_eq_nil_iff] at hv
    obtain ⟨c1, t1, rfl, h1, c2, t2, rfl, h2, c3, t3, rfl, h3, c4, t4, rfl, h4, c5, t5, rfl,
      h5, rfl⟩ := hv
    exact keyword_run_fixes c1 c2 c3 c4 c5 w h1 h2 h3 h4 h5 hw prev rest c T k
  · have e : ("fixed" : String).data = ['f', 'i', 'x', 'e', 'd'] := rfl
    rw [isCaseVariant, e] at hv
    simp only [List.map_eq_cons_iff, List.map_eq_nil_iff] at hv
    obtain ⟨c1, t1, rfl, h1, c2, t2, rfl, h2, c3, t3, rfl, h3, c4, t4, rfl, h4, c5, t5, rfl,
      h5, rfl⟩ := hv
    exact keyword_run_fixed c1 c2 c3 c4 c5 w h1 h2 h3 h4 h5 hw prev rest c T k
  · have e : ("resolve" : String).data = ['r', 'e', 's', 'o', 'l', 'v', 'e'] := rfl
    rw [isCaseVariant, e] at hv
    simp only [List.map_eq_cons_iff, List.map_eq_nil_iff] at hv
    obtain ⟨c1, t1, rfl, h1, c2, t2, rfl, h2, c3, t3, rfl, h3, c4, t4, rfl, h4, c5, t5, rfl,
      h5, c6, t6, rfl, h6, c7, t7, rfl, h7, rfl⟩ := hv
    exact keyword_run_resolve c1 c2 c3 c4 c5 c6 c7 w h1 h2 h3 h4 h5 h6 h7 hw prev rest c T k
  · have e : ("resolves" : String).data = ['r', 'e', 's', 'o', 'l', 'v', 'e', 's'] := rfl
    rw [isCaseVariant, e] at hv
    simp only [List.map_eq_cons_iff, List.map_eq_nil_iff] at hv
    obtain ⟨c1, t1, rfl, h1, c2, t2, rfl, h2, c3, t3, rfl, h3, c4, t4, rfl, h4, c5, t5, rfl,
      h5, c6, t6, rfl, h6, c7, t7, rfl, h7, c8, t8, rfl, h8, rfl⟩ := hv
    exact keyword_run_resolves c1 c2 c3 c4 c5 c6 c7 c8 w h1 h2 h3 h4 h5 h6 h7 h8 hw prev rest c T k
  · have e : ("resolved" : String).data = ['r', 'e', 's', 'o', 'l', 'v', 'e', 'd'] := rfl
    rw [isCaseVariant, e] at hv
    simp only [List.map_eq_cons_iff, List.map_eq_nil_iff] at hv
    obtain ⟨c1, t1, rfl, h1, c2, t2, rfl, h2, c3, t3, rfl, h3, c4, t4, rfl, h4, c5, t5, rfl,
      h5, c6, t6, rfl, h6, c7, t7, rfl, h7, c8, t8, rfl, h8, rfl⟩ := hv
    exact keyword_run_resolved c1 c2 c3 c4 c5 c6 c7 c8 w h1 h2 h3 h4 h5 h6 h7 h8 hw prev rest c T k

/-- A keyword in any letter case starts with an ASCII word rune. -/
theorem isKeyword_head (kw : List Char) (hkw : isKeyword kw) :
    ∃ x xs, kw = x :: xs ∧ isWordChar x = true := by
  obtain ⟨wd, hwd, hv⟩ := hkw
  have hfirst : ∀ wd ∈ keywords, wd.data.head?.any (fun a =>
      decide (97 ≤ a.toNat ∧ a.toNat ≤ 122 ∧ a.toNat ≠ 115 ∧ a.toNat ≠ 107)) = true := by
    decide
  have hwd' := hfirst wd hwd
  cases hd : wd.data with
  | nil => rw [hd] at hwd'; simp at hwd'
  | cons a t =>
  rw [hd] at hwd'
  simp only [List.head?_cons, Option.any_some, decide_eq_true_eq] at hwd'
  obtain ⟨h1, h2, h3, h4⟩ := hwd'
  rw [isCaseVariant, hd, List.map_eq_cons_iff] at hv
  obtain ⟨x, xs, rfl, hx, -⟩ := hv
  exact ⟨x, xs, rfl, foldRune_letter_word x a hx h1 h2 h3 h4⟩

/-! ### Greedy runs and the tail of keywordPattern -/

theorem run_seq {R : Type} (a b : Regex) (p : Pos) (c : Caps) (k : Pos → Caps → Option R) :
    (Regex.seq a b).run p c k = a.run p c (fun q d => b.run q d k) := rfl

theorem run_group {R : Type} (i : Nat) (a : Regex) (p : Pos) (c : Caps)
    (k : Pos → Caps → Option R) :
    (Regex.group i a).run p c k
      = a.run p c (fun q d => k q (d.set i (some (p.rest, q.rest)))) := rfl

theorem run_plus {R : Type} (cl : Char → Bool) (p : Pos) (c : Caps)
    (k : Pos → Caps → Option R) :
    (Regex.plus cl).run p c k = plusRun cl (fun q => k q c) p.rest := rfl

theorem run_opt {R : Type} (a : Regex) (p : Pos) (c : Caps) (k : Pos → Caps → Option R) :
    (Regex.opt a).run p c k
      = (match a.run p c k with
        | some r => some r
        | none => k p c) := rfl

theorem run_wordBoundary {R : Type} (p : Pos) (c : Caps) (k : Pos → Caps → Option R) :
    Regex.wordBoundary.run p c k = if atWordBoundary p then k p c else none := rfl

/-- Greedy `x+` on a run `m` of the class followed by a text on which no longer run works:
the first success is the stop right after `m`. -/
theorem plusRun_append {R : Type} (cl : Char → Bool) (k : Pos → Option R) (b : List Char)
    (res : R) (hb : plusRun cl k b = none) :
    ∀ m : List Char, m ≠ [] → (∀ y ∈ m, cl y = true) → k ⟨m.getLast?, b⟩ = some res →
      plusRun cl k (m ++ b) = some res := by
  intro m
  induction m with
  | nil => intro h; exact absurd rfl h
  | cons x m ih =>
    intro _ hall hk
    have hx : cl x = true := hall x (List.mem_cons_self _ _)
    cases m with
    | nil =>
      simp only [List.getLast?_singleton] at hk
      simp [plusRun, hx, hb, hk]
    | cons y m =>
      have := ih (by simp) (fun z hz => hall z (List.mem_cons_of_mem _ hz))
        (by simpa using hk)
      simp only [List.cons_append] at this ⊢
      unfold plusRun
      simp [hx, this]

/-- Greedy `x+` fails when the rest of the match fails at every stop. -/
theorem plusRun_none_of_stops {R : Type} (cl : Char → Bool) (k : Pos → Option R) :
    ∀ b : List Char, (∀ pre x post, b = pre ++ x :: post → k ⟨some x, post⟩ = none) →
      plusRun cl k b = none := by
  intro b
  induction b with
  | nil => intro _; rfl
  | cons x b ih =>
    intro h
    unfold plusRun
    split
    · have h1 := ih (fun pre y post hb => h (x :: pre) y post (by simp [hb]))
      have h2 := h [] x b rfl
      simp [h1, h2]
    · rfl

/-- A literal below `A` fails on a text that does not start with it. -/
theorem lit_run_none {R : Type} (a : Char) (ha : a.toNat < 65) (T : Regex) (p : Pos) (c : Caps)
    (k : Pos → Caps → Option R) (h : ∀ y ys, p.rest = y :: ys → y ≠ a) :
    (Regex.seq (.lit a) T).run p c k = none := by
  simp only [Regex.run]
  split
  · rename_i x xs hp
    split
    · rename_i hx
      exact absurd (foldRune_eq_of_small x a ha hx) (h x xs hp)
    · rfl
  · rfl

theorem lit_run_cons {R : Type} (a : Char) (T : Regex) (prev : Option Char) (xs : List Char)
    (c : Caps) (k : Pos → Caps → Option R) :
    (Regex.seq (.lit a) T).run ⟨prev, a :: xs⟩ c k = T.run ⟨some a, xs⟩ c k := by
  simp [Regex.run]

theorem getLast?_mem {α : Type} (m : List α) (hm : m ≠ []) : ∃ x ∈ m, m.getLast? = some x := by
  obtain ⟨x, hx⟩ := Option.isSome_iff_exists.mp (by
    cases m with
    | nil => exact absurd rfl hm
    | cons a t => simp [List.getLast?_cons] : m.getLast?.isSome = true)
  exact ⟨x, List.mem_of_getLast?_eq_some hx, hx⟩

theorem stop_post_mem {α : Type} (a : α) (t pre : List α) (x : α) (post : List α)
    (h : a :: t = pre ++ x :: post) : ∀ y ∈ post, y ∈ t := by
  intro y hy
  cases pre with
  | nil =>
    simp only [List.nil_append, List.cons.injEq] at h
    rw [h.2]; exact hy
  | cons p pre =>
    simp only [List.cons_append, List.cons.injEq] at h
    rw [h.2]; simp [hy]

/-- Greedy `x+` followed by a literal fails on a text in which, after the first rune, the
literal does not occur. -/
theorem plusRun_lit_none {R : Type} (cl : Char → Bool) (a : Char) (ha : a.toNat < 65)
    (T : Regex) (c : Pos → Caps) (k : Pos → Caps → Option R) (x0 : Char) (t : List Char)
    (ht : ∀ y ∈ t, y ≠ a) :
    plusRun cl (fun q => (Regex.seq (.lit a) T).run q (c q) k) (x0 :: t) = none := by
  apply plusRun_none_of_stops
  intro pre x post hb
  apply lit_run_none a ha
  intro y ys hp
  exact ht y (stop_post_mem x0 t pre x post hb y (by simp only at hp; rw [hp]; simp))

/-- The end of a match: `#`, then the digits `dg` that end the text. -/
theorem number_run {R : Type} (dg : List Char) (hdg : dg ≠ [])
    (hdigit : ∀ y ∈ dg, isDigit y = true) (prev : Option Char) (c : Caps)
    (k : Pos → Caps → Option R) (res : R)
    (hk : k ⟨dg.getLast?, []⟩ (c.set 3 (some (dg, []))) = some res) :
    (Regex.seq (.lit '#') (.seq (.group 3 (.plus isDigit)) .wordBoundary)).run
        ⟨prev, '#' :: dg⟩ c k = some res := by
  rw [lit_run_cons, run_seq, run_group, run_plus]
  obtain ⟨x, hx, hlast⟩ := getLast?_mem dg hdg
  have hword : isWordChar x = true := by
    have := (isDigit_iff x).mp (hdigit x hx)
    rw [isWordChar_iff]; omega
  have hb : atWordBoundary ⟨dg.getLast?, []⟩ = true := by
    simp [atWordBoundary, hlast, hword]
  have := plusRun_append isDigit
    (fun q => Regex.wordBoundary.run q (c.set 3 (some (dg, q.rest))) k) [] res rfl dg hdg hdigit
    (by simp only [run_wordBoundary, hb, if_true]; exact hk)
  rw [List.append_nil] at this
  exact this

theorem digit_ne (y a : Char) (hy : isDigit y = true) (ha : a.toNat < 48) : y ≠ a := by
  intro h
  have := (isDigit_iff y).mp hy
  rw [h] at this
  omega

/-- The tail `(.+/.+)?#(\d+)\b` on `#` and digits that end the text: the group is skipped. -/
theorem keywordTail_run_own {R : Type} (dg : List Char) (hdg : dg ≠ [])
    (hdigit : ∀ y ∈ dg, isDigit y = true) (prev : Option Char) (c : Caps)
    (k : Pos → Caps → Option R) (res : R)
    (hk : k ⟨dg.getLast?, []⟩ (c.set 3 (some (dg, []))) = some res) :
    keywordTail.run ⟨prev, '#' :: dg⟩ c k = some res := by
  have hnum := number_run dg hdg hdigit prev c k res hk
  have hgroup : ∀ k' : Pos → Caps → Option R,
      ownerRepoGroup.run ⟨prev, '#' :: dg⟩ c k' = none := by
    intro k'
    unfold ownerRepoGroup
    rw [run_group, run_seq, run_plus]
    exact plusRun_lit_none isDot '/' (by decide) _ (fun _ => c) _ '#' dg
      (fun y hy => digit_ne y '/' (hdigit y hy) (by decide))
  unfold keywordTail
  rw [run_seq, run_opt, hgroup]
  exact hnum

/-- The tail `(.+/.+)?#(\d+)\b` on `owner/repo#digits` that ends the text: the group takes
`owner/repo`. -/
theorem keywordTail_run_foreign {R : Type} (owner repo dg : List Char) (ho : owner ≠ [])
    (hr : repo ≠ []) (hodot : ∀ y ∈ owner, isDot y = true)
    (hrdot : ∀ y ∈ repo, isDot y = true) (hrslash : ∀ y ∈ repo, y ≠ '/')
    (hdg : dg ≠ []) (hdigit : ∀ y ∈ dg, isDigit y = true) (prev : Option Char) (c : Caps)
    (k : Pos → Caps → Option R) (res : R)
    (hk : k ⟨dg.getLast?, []⟩
      ((c.set 2 (some (owner ++ '/' :: (repo ++ '#' :: dg), '#' :: dg))).set 3 (some (dg, [])))
        = some res) :
    keywordTail.run ⟨prev, owner ++ '/' :: (repo ++ '#' :: dg)⟩ c k = some res := by
  have hgroup : ownerRepoGroup.run ⟨prev, owner ++ '/' :: (repo ++ '#' :: dg)⟩ c
      (fun q d => (Regex.seq (.lit '#') (.seq (.group 3 (.plus isDigit)) .wordBoundary)).run
        q d k) = some res := by
    unfold ownerRepoGroup
    rw [run_group, run_seq, run_plus]
    apply plusRun_append isDot _ ('/' :: (repo ++ '#' :: dg)) res _ owner ho hodot
    · -- the stop after the owner: `/`, then the second run stops after the repository
      rw [lit_run_cons, run_plus]
      apply plusRun_append isDot _ ('#' :: dg) res _ repo hr hrdot
      · exact number_run dg hdg hdigit _ _ k res hk
      · -- a longer second run would have to find `#` among the digits
        exact plusRun_lit_none isDot '#' (by decide) _
          (fun q => c.set 2 (some (owner ++ '/' :: (repo ++ '#' :: dg), q.rest))) k '#' dg
          (fun y hy => digit_ne y '#' (hdigit y hy) (by decide))
    · -- a longer first run would have to find `/` after the one that follows the owner
      refine plusRun_lit_none isDot '/' (by decide) _ (fun _ => c) _ '/' (repo ++ '#' :: dg) ?_
      intro y hy
      rcases List.mem_append.mp hy with h | h
      · exact hrslash y h
      · rcases List.mem_cons.mp h with h | h
        · rw [h]; decide
        · exact digit_ne y '/' (hdigit y h) (by decide)
  unfold keywordTail
  rw [run_seq, run_opt, hgroup]

/-! ### Bodies made of one reference -/

theorem exec_eq (re : Regex) (n : Nat) (p : Pos) :
    re.exec n p = re.run p (List.replicate (n + 1) none) (execEnd p.rest) := rfl

/-- An anchored attempt at the start of a text that begins with a keyword and whitespace, when
the text after the whitespace starts with no whitespace: it is decided by the tail of the
pattern after the whole whitespace. -/
theorem exec_keyword_space (kw ws tail : List Char) (hkw : isKeyword kw) (hws : ws ≠ [])
    (hspace : ∀ y ∈ ws, isSpace y = true) (htail : ∀ y ys, tail = y :: ys → isSpace y = false)
    (res : Pos × Caps)
    (hk : keywordTail.run ⟨ws.getLast?, tail⟩
      ((List.replicate (keywordPattern.NumSubexp + 1) none).set 1
        (some (kw ++ (ws ++ tail), ws ++ tail)))
      (execEnd (kw ++ (ws ++ tail))) = some res) :
    keywordPattern.exec keywordPattern.NumSubexp ⟨none, kw ++ (ws ++ tail)⟩ = some res := by
  obtain ⟨x, xs, hx, hword⟩ := isKeyword_head kw hkw
  have hb : atWordBoundary ⟨none, kw ++ (ws ++ tail)⟩ = true := by
    simp [atWordBoundary, hx, hword]
  rw [exec_eq]
  unfold keywordPattern
  rw [run_seq, run_wordBoundary, if_pos hb]
  cases ws with
  | nil => exact absurd rfl hws
  | cons w ws' =>
    have hw : isSpace w = true := hspace w (List.mem_cons_self _ _)
    show (Regex.seq (.group 1 keywordAlternation) (.seq (.plus isSpace) keywordTail)).run
      ⟨none, kw ++ w :: (ws' ++ tail)⟩ _ _ = some res
    rw [keyword_space_run kw hkw w hw, run_seq, run_plus]
    have hnone : ∀ k' : Pos → Option (Pos × Caps), plusRun isSpace k' tail = none := by
      intro k'
      cases tail with
      | nil => rfl
      | cons y ys => exact plusRun_cons_false _ _ _ _ (htail y ys rfl)
    exact plusRun_append isSpace _ tail res (hnone _) (w :: ws') hws hspace hk

theorem allMatches_skip_all (re : Regex) (n : Nat) :
    ∀ (xs : List Char) (prev : Option Char), re.allMatches n xs xs.length true prev = [] := by
  intro xs
  induction xs with
  | nil =>
    intro prev
    simp only [List.length_nil, Regex.allMatches]
    split <;> simp
  | cons x xs ih =>
    intro prev
    simp only [List.length_cons, Regex.allMatches]
    exact ih _

/-- A match at the start of the text that runs to its end is the only match. -/
theorem FindAllStringSubmatch_whole (re : Regex) (n : Nat) (t : List Char) (ht : t ≠ [])
    (prev : Option Char) (c : Caps) (h : re.exec n ⟨none, t⟩ = some (⟨prev, []⟩, c)) :
    re.FindAllStringSubmatch n (String.mk t) = [submatch c] := by
  unfold Regex.FindAllStringSubmatch
  cases t with
  | nil => exact absurd rfl ht
  | cons x xs =>
    show re.allMatches n (x :: xs) 0 false none = [submatch c]
    unfold Regex.allMatches
    rw [h]
    simp only [List.length_cons, List.length_nil, Nat.sub_zero, Nat.add_one_ne_zero, if_false,
      Nat.add_sub_cancel]
    rw [allMatches_skip_all]

theorem capText_whole (t : List Char) : capText (some (t, [])) = t := by
  simp [capText]

/-- The one match of a body made of a keyword, whitespace, `#` and digits. -/
theorem FindAllStringSubmatch_own (kw ws dg : List Char) (hkw : isKeyword kw) (hws : ws ≠ [])
    (hspace : ∀ y ∈ ws, isSpace y = true) (hdg : dg ≠ [])
    (hdigit : ∀ y ∈ dg, isDigit y = true) :
    keywordPattern.FindAllStringSubmatch keywordPattern.NumSubexp
        (String.mk (kw ++ (ws ++ '#' :: dg)))
      = [[String.mk (kw ++ (ws ++ '#' :: dg)), String.mk kw, "", String.mk dg]] := by
  have hexec := exec_keyword_space kw ws ('#' :: dg) hkw hws hspace
    (by intro y ys h; simp only [List.cons.injEq] at h; rw [← h.1]; decide) _
    (keywordTail_run_own dg hdg hdigit _ _ _ _ rfl)
  rw [FindAllStringSubmatch_whole _ _ _ (by simp) _ _ hexec]
  have e1 : capText (some (kw ++ (ws ++ '#' :: dg), ws ++ '#' :: dg)) = kw :=
    capText_append _ _
  have e0 : capText none = [] := rfl
  simp [submatch, keywordPattern.NumSubexp, List.replicate, capText_whole, e1, e0]

/-- The one match of a body made of a keyword, whitespace, `owner/repo`, `#` and digits. -/
theorem FindAllStringSubmatch_foreign (kw ws owner repo dg : List Char) (hkw : isKeyword kw)
    (hws : ws ≠ []) (hspace : ∀ y ∈ ws, isSpace y = true) (ho : owner ≠ []) (hr : repo ≠ [])
    (hohead : ∀ y ys, owner = y :: ys → isSpace y = false)
    (hodot : ∀ y ∈ owner, isDot y = true) (hrdot : ∀ y ∈ repo, isDot y = true)
    (hrslash : ∀ y ∈ repo, y ≠ '/') (hdg : dg ≠ []) (hdigit : ∀ y ∈ dg, isDigit y = true) :
    keywordPattern.FindAllStringSubmatch keywordPattern.NumSubexp
        (String.mk (kw ++ (ws ++ (owner ++ '/' :: (repo ++ '#' :: dg)))))
      = [[String.mk (kw ++ (ws ++ (owner ++ '/' :: (repo ++ '#' :: dg)))), String.mk kw,
          String.mk (owner ++ '/' :: repo), String.mk dg]] := by
  have hexec := exec_keyword_space kw ws (owner ++ '/' :: (repo ++ '#' :: dg)) hkw hws hspace
    (by
      intro y ys h
      cases owner with
      | nil => exact absurd rfl ho
      | cons o os =>
        simp only [List.cons_append, List.cons.injEq] at h
        rw [← h.1]; exact hohead o os rfl) _
    (keywordTail_run_foreign owner repo dg ho hr hodot hrdot hrslash hdg hdigit _ _ _ _ rfl)
  rw [FindAllStringSubmatch_whole _ _ _ (by simp) _ _ hexec]
  have e1 : capText (some (kw ++ (ws ++ (owner ++ '/' :: (repo ++ '#' :: dg))),
      ws ++ (owner ++ '/' :: (repo ++ '#' :: dg)))) = kw := capText_append _ _
  have e2 : capText (some (owner ++ '/' :: (repo ++ '#' :: dg), '#' :: dg))
      = owner ++ '/' :: repo := by
    have : owner ++ '/' :: (repo ++ '#' :: dg) = (owner ++ '/' :: repo) ++ '#' :: dg := by simp
    rw [this, capText_append]
  simp [submatch, keywordPattern.NumSubexp, List.replicate, capText_whole, e1, e2]

/-! ### Atoi and Split on the captured texts -/

theorem decimal_foldl_ge (ds : List Char) :
    ∀ acc : Nat, acc ≤ ds.foldl (fun acc c => acc * 10 + (c.toNat - 48)) acc := by
  induction ds with
  | nil => intro acc; exact Nat.le_refl _
  | cons d ds ih =>
    intro acc
    simp only [List.foldl_cons]
    exact Nat.le_trans (by omega) (ih _)

theorem parseUintLoop_digits (ds : List Char) (hdigit : ∀ y ∈ ds, isDigit y = true) :
    ∀ acc : Nat, ds.foldl (fun acc c => acc * 10 + (c.toNat - 48)) acc < 2 ^ 64 →
      parseUintLoop ds acc = .ok (ds.foldl (fun acc c => acc * 10 + (c.toNat - 48)) acc) := by
  induction ds with
  | nil => intro acc _; rfl
  | cons d ds ih =>
    intro acc h
    simp only [List.foldl_cons] at h ⊢
    have hd : isDigit d = true := hdigit d (List.mem_cons_self _ _)
    have hlt : ¬ (acc * 10 + (d.toNat - 48) ≥ 2 ^ 64) := by
      have := decimal_foldl_ge ds (acc * 10 + (d.toNat - 48))
      omega
    unfold parseUintLoop
    simp only [hd, if_true, hlt, if_false]
    exact ih (fun y hy => hdigit y (List.mem_cons_of_mem _ hy)) _ h

/-- On a non-empty string of digits whose value fits in an `int`, `Atoi` returns that value and
no error. -/
theorem Atoi_digits (ds : List Char) (hne : ds ≠ []) (hdigit : ∀ y ∈ ds, isDigit y = true)
    (hfit : (decimalValue ds : Int) ≤ maxInt) :
    Atoi (String.mk ds) = ((decimalValue ds : Int), none) := by
  have hlt : decimalValue ds < 2 ^ 63 := by
    unfold maxInt at hfit
    omega
  have hloop := parseUintLoop_digits ds hdigit 0 (by
    show decimalValue ds < 2 ^ 64
    omega)
  cases ds with
  | nil => exact absurd rfl hne
  | cons d ds =>
    have hd := (isDigit_iff d).mp (hdigit d (List.mem_cons_self _ _))
    have h1 : d ≠ '-' := by
      intro h; rw [h] at hd; revert hd; decide
    have h2 : d ≠ '+' := by
      intro h; rw [h] at hd; revert hd; decide
    unfold Atoi
    simp only [h1, h2, if_false]
    unfold atoiSigned
    simp only [hloop]
    have : ¬ (decimalValue (d :: ds) ≥ 2 ^ 63) := by omega
    simp [decimalValue] at this ⊢
    omega

theorem splitRunes_no_sep (sep : Char) :
    ∀ xs : List Char, sep ∉ xs → splitRunes sep xs = [xs] := by
  intro xs
  induction xs with
  | nil => intro _; rfl
  | cons x xs ih =>
    intro h
    have hx : x ≠ sep := fun e => h (e ▸ List.mem_cons_self _ _)
    have := ih (fun hm => h (List.mem_cons_of_mem _ hm))
    simp [splitRunes, hx, this]

theorem splitRunes_append_sep (sep : Char) (b : List Char) :
    ∀ a : List Char, sep ∉ a → splitRunes sep (a ++ sep :: b) = a :: splitRunes sep b := by
  intro a
  induction a with
  | nil => intro _; simp [splitRunes]
  | cons x a ih =>
    intro h
    have hx : x ≠ sep := fun e => h (e ▸ List.mem_cons_self _ _)
    have := ih (fun hm => h (List.mem_cons_of_mem _ hm))
    simp [splitRunes, hx, this]

theorem Split_owner_repo (owner repo : List Char) (ho : '/' ∉ owner) (hr : '/' ∉ repo) :
    Split (String.mk (owner ++ '/' :: repo)) '/' = [String.mk owner, String.mk repo] := by
  simp [Split, splitRunes_append_sep '/' repo owner ho, splitRunes_no_sep '/' repo hr]

/-! ### The reference of a body made of one reference -/

theorem isRepoChar_facts (y : Char) (h : isRepoChar y = true) :
    isDot y = true ∧ y ≠ '/' ∧ isSpace y = false := by
  have h' := (isRepoChar_iff y).mp h
  refine ⟨(isDot_iff y).mpr (by omega), ?_, ?_⟩
  · intro e
    rw [e] at h'
    revert h'
    decide
  · cases hs : isSpace y with
    | false => rfl
    | true =>
      have := (isSpace_iff y).mp hs
      omega

/-- With the rule enabled, a successful native lookup without own-repository reference, and a
body from which exactly one reference is extracted, `IsValid` is decided by the lookup of that
reference. -/
theorem IsValid_single_reference (K : Constants) (v : issueValidator)
    (pullRequest : PullRequest) (references : List Meta) (org : Meta) (num : Int)
    (hcfg : v.config.Issue = true)
    (hrefs : v.client.GetIssueReferences pullRequest.Repository pullRequest.Number
      = (references, none))
    (hown : ¬ ∃ r ∈ references, r.joined = pullRequest.Repository.joined)
    (hextract : extractReferences pullRequest = [some (org, num)]) :
    ((v.client.GetIssue org num).1 ≠ none →
      v.IsValid K pullRequest
        = some { Name := K.IssueValidatorName, Active := true, Result := none }) ∧
    ((v.client.GetIssue org num).1 = none →
      v.IsValid K pullRequest
        = some { Name := K.IssueValidatorName, Active := true, Result := some K.ErrNoIssue }) := by
  obtain ⟨hiff, hfail⟩ := IsValid_of_references K v pullRequest references hcfg hrefs
  constructor
  · intro h
    exact hiff.mpr (Or.inr ⟨org, num, by rw [hextract]; simp, h⟩)
  · intro h
    apply hfail
    rintro (h' | ⟨o, n, hmem, hne⟩)
    · exact hown h'
    · rw [hextract] at hmem
      simp only [List.mem_singleton, Option.some.injEq, Prod.mk.injEq] at hmem
      obtain ⟨rfl, rfl⟩ := hmem
      exact hne h

/-- The reference of a body made of a keyword, whitespace, `#` and digits. -/
theorem extractReferences_own (pullRequest : PullRequest) (kw ws dg : List Char)
    (hkw : isKeyword kw) (hws : ws ≠ []) (hspace : ∀ y ∈ ws, isSpace y = true) (hdg : dg ≠ [])
    (hdigit : ∀ y ∈ dg, isDigit y = true) (hfit : (decimalValue dg : Int) ≤ maxInt)
    (hbody : pullRequest.Body = String.mk (kw ++ (ws ++ '#' :: dg))) :
    extractReferences pullRequest = [some (pullRequest.Repository, (decimalValue dg : Int))] := by
  unfold extractReferences
  rw [hbody, FindAllStringSubmatch_own kw ws dg hkw hws hspace hdg hdigit]
  simp [resolveReference, Atoi_digits dg hdg hdigit hfit]

/-- The reference of a body made of a keyword, whitespace, `owner/repo`, `#` and digits. -/
theorem extractReferences_foreign (pullRequest : PullRequest) (kw ws owner repo dg : List Char)
    (hkw : isKeyword kw) (hws : ws ≠ []) (hspace : ∀ y ∈ ws, isSpace y = true)
    (ho : owner ≠ []) (hr : repo ≠ []) (hochar : ∀ y ∈ owner, isRepoChar y = true)
    (hrchar : ∀ y ∈ repo, isRepoChar y = true) (hdg : dg ≠ [])
    (hdigit : ∀ y ∈ dg, isDigit y = true) (hfit : (decimalValue dg : Int) ≤ maxInt)
    (hbody : pullRequest.Body
      = String.mk (kw ++ (ws ++ (owner ++ '/' :: (repo ++ '#' :: dg))))) :
    extractReferences pullRequest
      = [some ({ Owner := String.mk owner, Name := String.mk repo }, (decimalValue dg : Int))] := by
  unfold extractReferences
  rw [hbody, FindAllStringSubmatch_foreign kw ws owner repo dg hkw hws hspace ho hr
    (fun y ys h => (isRepoChar_facts y (hochar y (h ▸ List.mem_cons_self _ _))).2.2)
    (fun y hy => (isRepoChar_facts y (hochar y hy)).1)
    (fun y hy => (isRepoChar_facts y (hrchar y hy)).1)
    (fun y hy => (isRepoChar_facts y (hrchar y hy)).2.1) hdg hdigit]
  have hsplit := Split_owner_repo owner repo
    (fun h => (isRepoChar_facts _ (hochar _ h)).2.1 rfl)
    (fun h => (isRepoChar_facts _ (hrchar _ h)).2.1 rfl)
  have hlen : (String.mk (owner ++ '/' :: repo)).length > 0 := by
    simp [String.length]
  simp [resolveReference, Atoi_digits dg hdg hdigit hfit, hsplit, hlen]

/-! ### The strings of a match and the repository they resolve to -/

/-- The four strings of every match found in a body. -/
theorem FindAllStringSubmatch_shape (body : String) (keyword : List String)
    (hmem : keyword ∈ keywordPattern.FindAllStringSubmatch keywordPattern.NumSubexp body) :
    ∃ w kw g dg, keyword = [String.mk w, String.mk kw, String.mk g, String.mk dg] ∧
      isKeyword kw ∧ isOwnerRepoCapture g ∧ dg ≠ [] ∧ (∀ y ∈ dg, isDigit y = true) := by
  obtain ⟨pre, p, q, c, -, hexec, rfl⟩ := allMatches_mem _ _ _ _ _ _ _ hmem
  obtain ⟨kw, ws, g, dg, hkw, -, -, hg, hdg, hdigit, -, hsub⟩ := exec_keywordPattern _ _ _ hexec
  exact ⟨_, kw, g, dg, hsub, hkw, hg, hdg, hdigit⟩

/-- The first token of a split has no separator, and the text is the first token alone or the
first token, a separator and the text that splits into the other tokens. -/
theorem splitRunes_cons (sep : Char) :
    ∀ (xs t : List Char) (ts : List (List Char)), splitRunes sep xs = t :: ts →
      sep ∉ t ∧ ((ts = [] ∧ xs = t) ∨
        (ts ≠ [] ∧ ∃ ys, xs = t ++ sep :: ys ∧ splitRunes sep ys = ts)) := by
  intro xs
  induction xs with
  | nil =>
    intro t ts h
    simp only [splitRunes, List.cons.injEq] at h
    obtain ⟨rfl, rfl⟩ := h
    exact ⟨by simp, Or.inl ⟨rfl, rfl⟩⟩
  | cons c cs ih =>
    intro t ts h
    unfold splitRunes at h
    split at h
    · rename_i hc
      simp only [List.cons.injEq] at h
      obtain ⟨rfl, rfl⟩ := h
      exact ⟨by simp, Or.inr ⟨splitRunes_ne_nil sep cs, cs, by simp [hc], rfl⟩⟩
    · rename_i hc
      split at h
      · rename_i t' ts' heq
        simp only [List.cons.injEq] at h
        obtain ⟨rfl, rfl⟩ := h
        obtain ⟨hnot, hcase⟩ := ih t' ts' heq
        refine ⟨?_, ?_⟩
        · intro hm
          rcases List.mem_cons.mp hm with h1 | h1
          · exact hc h1.symm
          · exact hnot h1
        · rcases hcase with ⟨h1, h2⟩ | ⟨h1, ys, h2, h3⟩
          · exact Or.inl ⟨h1, by rw [h2]⟩
          · exact Or.inr ⟨h1, ys, by rw [h2]; rfl, h3⟩
      · rename_i heq
        exact absurd heq (splitRunes_ne_nil _ _)

/-- What `hasIssueMagicString` resolves a match with a non-empty owner/repo capture to: the
owner is the text before the first `/`, the name the text between the first `/` and the
second (or the end), and the two give the capture back exactly when it has one `/`. -/
theorem resolveReference_segment (pullRequest : PullRequest) (w kw g dg : List Char)
    (hg : isOwnerRepoCapture g) (hne : g ≠ []) :
    ∃ org, resolveReference pullRequest [String.mk w, String.mk kw, String.mk g, String.mk dg]
        = some (org, (Atoi (String.mk dg)).1) ∧
      '/' ∈ g ∧ '/' ∉ org.Owner.data ∧ '/' ∉ org.Name.data ∧
      (∃ rest, g = org.Owner.data ++ '/' :: org.Name.data ++ rest ∧
        (rest = [] ∨ rest.head? = some '/')) ∧
      (org.joined = String.mk g ↔ g.count '/' = 1) := by
  rcases hg with rfl | ⟨a, b, -, -, hgab, -, -⟩
  · exact absurd rfl hne
  have hslash : '/' ∈ g := by rw [hgab]; simp
  have hlen : 2 ≤ (splitRunes '/' g).length := by
    rw [hgab]; exact splitRunes_length_append '/' a b
  -- the tokens
  cases hsp : splitRunes '/' g with
  | nil => rw [hsp] at hlen; simp at hlen
  | cons t0 ts =>
    cases ts with
    | nil => rw [hsp] at hlen; simp at hlen
    | cons t1 rest =>
      obtain ⟨h0, hcase0⟩ := splitRunes_cons '/' g t0 (t1 :: rest) hsp
      rcases hcase0 with ⟨habs, -⟩ | ⟨-, ys, hgys, hys⟩
      · cases habs
      obtain ⟨h1, hcase1⟩ := splitRunes_cons '/' ys t1 rest hys
      refine ⟨{ Owner := String.mk t0, Name := String.mk t1 }, ?_, hslash, h0, h1, ?_, ?_⟩
      · simp [resolveReference, Split, hsp, hne]
      · rcases hcase1 with ⟨-, hy⟩ | ⟨-, zs, hy, -⟩
        · exact ⟨[], by simp [hgys, hy], Or.inl rfl⟩
        · exact ⟨'/' :: zs, by simp [hgys, hy], Or.inr rfl⟩
      · have hjoin : ({ Owner := String.mk t0, Name := String.mk t1 } : Meta).joined
            = String.mk (t0 ++ '/' :: t1) := by
          apply String.ext
          simp [Meta.joined]
        have hc0 : t0.count '/' = 0 := List.count_eq_zero.mpr h0
        have hc1 : t1.count '/' = 0 := List.count_eq_zero.mpr h1
        rw [hjoin]
        rcases hcase1 with ⟨-, hy⟩ | ⟨-, zs, hy, -⟩
        · have : g = t0 ++ '/' :: t1 := by rw [hgys, hy]
          rw [this]
          simp [List.count_append, List.count_cons, hc0, hc1]
        · have hg' : g = t0 ++ '/' :: (t1 ++ '/' :: zs) := by rw [hgys, hy]
          rw [hg']
          constructor
          · intro h
            have := congrArg String.data h
            simp at this
          · intro h
            simp [List.count_append, List.count_cons, hc0, hc1] at h

/-! ### The calls of hasIssueMagicString, totality, and the loop of verified.go -/

/-- Matches that all resolve have a list of references. -/
theorem resolved_references (pullRequest : PullRequest) :
    ∀ ms : List (List String), (∀ m ∈ ms, ∃ ref, resolveReference pullRequest m = some ref) →
      ∃ refs : List (Meta × Int), ms.map (resolveReference pullRequest) = refs.map some := by
  intro ms
  induction ms with
  | nil => intro _; exact ⟨[], rfl⟩
  | cons m ms ih =>
    intro hall
    obtain ⟨ref, href⟩ := hall m (List.mem_cons_self _ _)
    obtain ⟨refs, hrefs⟩ := ih (fun m' hm' => hall m' (List.mem_cons_of_mem _ hm'))
    exact ⟨ref :: refs, by simp [href, hrefs]⟩

/-- The loop of `hasIssueMagicString` over matches that resolve to `refs`: the calls are the
references up to and including the first whose lookup yields an issue, and the value says
whether there is one. -/
theorem lookupTrace_spec (v : issueValidator) (pullRequest : PullRequest) :
    ∀ (ms : List (List String)) (refs : List (Meta × Int)),
      ms.map (resolveReference pullRequest) = refs.map some →
      ∃ calls found, v.lookupTrace pullRequest ms = some (calls, found) ∧
        v.lookup pullRequest ms = some found ∧
        ((found = true ∧ ∃ pre r post, refs = pre ++ r :: post ∧
            (∀ x ∈ pre, (v.client.GetIssue x.1 x.2).1 = none) ∧
            (v.client.GetIssue r.1 r.2).1 ≠ none ∧ calls = pre ++ [r]) ∨
         (found = false ∧ (∀ x ∈ refs, (v.client.GetIssue x.1 x.2).1 = none) ∧
            calls = refs)) := by
  intro ms
  induction ms with
  | nil =>
    intro refs h
    have : refs = [] := by
      cases refs with
      | nil => rfl
      | cons r rs => simp at h
    subst this
    exact ⟨[], false, rfl, rfl, Or.inr ⟨rfl, by simp, rfl⟩⟩
  | cons m ms ih =>
    intro refs h
    cases refs with
    | nil => simp at h
    | cons r rs =>
      simp only [List.map_cons, List.cons.injEq] at h
      obtain ⟨hm, hrest⟩ := h
      obtain ⟨calls, found, htrace, hlookup, hcase⟩ := ih rs hrest
      obtain ⟨org, num⟩ := r
      unfold issueValidator.lookupTrace issueValidator.lookup
      rw [hm]
      simp only
      cases hget : (v.client.GetIssue org num).1 with
      | some issue =>
        refine ⟨[(org, num)], true, rfl, rfl, Or.inl ⟨rfl, [], (org, num), rs, rfl, ?_, ?_, rfl⟩⟩
        · intro x hx; cases hx
        · simp [hget]
      | none =>
        simp only [htrace, hlookup]
        refine ⟨(org, num) :: calls, found, rfl, rfl, ?_⟩
        rcases hcase with ⟨hf, pre, r', post, hrs, hpre, hr', hcalls⟩ | ⟨hf, hall, hcalls⟩
        · refine Or.inl ⟨hf, (org, num) :: pre, r', post, by simp [hrs], ?_, hr', by simp [hcalls]⟩
          intro x hx
          rcases List.mem_cons.mp hx with rfl | hx
          · exact hget
          · exact hpre x hx
        · refine Or.inr ⟨hf, ?_, by rw [hcalls]⟩
          intro x hx
          rcases List.mem_cons.mp hx with rfl | hx
          · exact hget
          · exact hall x hx

/-- Every call the loop of `hasIssueMagicString` makes has the reference of a match as its
arguments. -/
theorem lookupTrace_calls (v : issueValidator) (pullRequest : PullRequest) :
    ∀ (ms : List (List String)) (calls : List (Meta × Int)) (found : Bool),
      v.lookupTrace pullRequest ms = some (calls, found) →
      ∀ call ∈ calls, ∃ m ∈ ms, resolveReference pullRequest m = some call := by
  intro ms
  induction ms with
  | nil =>
    intro calls found h call hcall
    simp only [issueValidator.lookupTrace, Option.some.injEq, Prod.mk.injEq] at h
    rw [← h.1] at hcall
    cases hcall
  | cons m ms ih =>
    intro calls found h call hcall
    unfold issueValidator.lookupTrace at h
    split at h
    · cases h
    · rename_i org num href
      split at h
      · simp only [Option.some.injEq, Prod.mk.injEq] at h
        rw [← h.1] at hcall
        simp only [List.mem_singleton] at hcall
        exact ⟨m, List.mem_cons_self _ _, by rw [href, hcall]⟩
      · split at h
        · cases h
        · rename_i calls' found' htrace
          simp only [Option.some.injEq, Prod.mk.injEq] at h
          rw [← h.1] at hcall
          rcases List.mem_cons.mp hcall with rfl | hcall
          · exact ⟨m, List.mem_cons_self _ _, href⟩
          · obtain ⟨m', hm', hres⟩ := ih calls' found' htrace call hcall
            exact ⟨m', List.mem_cons_of_mem _ hm', hres⟩

/-- Method `issueValidator.IsValid` returns a result for every input. -/
theorem IsValid_total (K : Constants) (v : issueValidator) (pullRequest : PullRequest) :
    ∃ r, v.IsValid K pullRequest = some r := by
  obtain ⟨b, hb, -⟩ := hasIssueMagicString_spec v pullRequest
  unfold issueValidator.IsValid
  split
  · exact ⟨_, rfl⟩
  · split
    · exact ⟨_, rfl⟩
    · split
      · exact ⟨_, rfl⟩
      · rw [hb]
        cases b
        · exact ⟨_, rfl⟩
        · exact ⟨_, rfl⟩

/-- The loop of `verifiedValidator.IsValid`: the result has no error exactly when the pattern
matches every message. -/
theorem verified_check_spec (v : verifiedValidator) (pattern : String → Bool) :
    ∀ commits : List RepositoryCommit,
      (v.check pattern commits).Result = none ↔
        ∀ c ∈ commits, pattern (Commit.GetMessage c.Commit) = true := by
  intro commits
  induction commits with
  | nil => simp [verifiedValidator.check]
  | cons x xs ih =>
    unfold verifiedValidator.check
    cases hx : pattern (Commit.GetMessage x.Commit) with
    | false => simp [hx]
    | true => simp [hx, ih]

/-! ### The commit validator and CommitPattern -/

/-- The loop of `commitValidator.IsValid` reads the name of the validator only. -/
theorem check_congr (v v' : commitValidator) (hname : v.Name = v'.Name)
    (pattern : String → Bool) :
    ∀ commits : List RepositoryCommit, v.check pattern commits = v'.check pattern commits := by
  intro commits
  induction commits with
  | nil => simp [commitValidator.check, hname]
  | cons x xs ih =>
    unfold commitValidator.check
    rw [ih, hname]

/-- Method `commitValidator.IsValid` does not read `CommitPattern`. -/
theorem commitValidator_IsValid_commitPattern (MustCompile : RegexpCompiler)
    (v : commitValidator) (commitPattern : String) (pullRequest : GithubPullRequest) :
    commitValidator.IsValid MustCompile
        { v with config := { v.config with CommitPattern := commitPattern } } pullRequest
      = v.IsValid MustCompile pullRequest := by
  unfold commitValidator.IsValid
  simp only
  split
  · rfl
  · split
    · rfl
    · apply congrArg some
      apply check_congr
      rfl

/-! ## Theorems for the claims -/

/-- C1: with the rule enabled and a successful native lookup, `IsValid` returns the passing
result if and only if (a) a native reference has the "owner/name" string of the repository of the
pull request or (b) `GetIssue` returns a non-nil issue for a reference extracted from the body by
`keywordPattern`; in every other case it returns the result carrying `ErrNoIssue`. -/
theorem C1_pass_iff_linked (K : Constants) (v : issueValidator) (pullRequest : PullRequest)
    (references : List Meta) (hcfg : v.config.Issue = true)
    (hrefs : v.client.GetIssueReferences pullRequest.Repository pullRequest.Number
      = (references, none)) :
    (v.IsValid K pullRequest
        = some { Name := K.IssueValidatorName, Active := true, Result := none }
      ↔ isLinked v pullRequest references) ∧
    (¬ isLinked v pullRequest references →
      v.IsValid K pullRequest
        = some { Name := K.IssueValidatorName, Active := true, Result := some K.ErrNoIssue }) :=
  IsValid_of_references K v pullRequest references hcfg hrefs

/-- C1 at a concrete input: the body "Closes #3" with a client that knows issue 3 only; the
extracted reference makes the issue linked, and `IsValid` passes. -/
theorem C1_pass_iff_linked_witness :
    (NewIssueValidator sampleConstants onlyIssueThreeClient ⟨true⟩).IsValid sampleConstants
        ⟨2, ⟨"namcheee", "conventional-pr"⟩, "Closes #3"⟩
      = some { Name := "issue", Active := true, Result := none } :=
  (C1_pass_iff_linked sampleConstants
    (NewIssueValidator sampleConstants onlyIssueThreeClient ⟨true⟩)
    ⟨2, ⟨"namcheee", "conventional-pr"⟩, "Closes #3"⟩ [] rfl rfl).1.mpr
    (Or.inr ⟨⟨"namcheee", "conventional-pr"⟩, 3, by decide, by decide⟩)

/-- C2, as the code has it: the error of `GetIssue` is discarded, so a failed lookup counts like
a clean "not found". With the rule enabled, a successful native lookup and no own-repository
reference, `IsValid` returns the result carrying `ErrNoIssue` whenever no lookup of an extracted
reference yields an issue, whatever errors those lookups return. -/
theorem C2_failed_lookup_is_not_found (K : Constants) (v : issueValidator)
    (pullRequest : PullRequest) (references : List Meta) (hcfg : v.config.Issue = true)
    (hrefs : v.client.GetIssueReferences pullRequest.Repository pullRequest.Number
      = (references, none))
    (hown : ¬ ∃ r ∈ references, r.joined = pullRequest.Repository.joined)
    (hfail : ∀ org num, some (org, num) ∈ extractReferences pullRequest →
      (v.client.GetIssue org num).1 = none) :
    v.IsValid K pullRequest
      = some { Name := K.IssueValidatorName, Active := true, Result := some K.ErrNoIssue } := by
  refine (IsValid_of_references K v pullRequest references hcfg hrefs).2 ?_
  rintro (h | ⟨org, num, hmem, hne⟩)
  · exact hown h
  · exact hne (hfail org num hmem)

/-- C2 at a concrete input: the body "Closes #4" and a client whose every `GetIssue` fails. -/
theorem C2_failed_lookup_is_not_found_witness :
    (NewIssueValidator sampleConstants failingIssueClient ⟨true⟩).IsValid sampleConstants
        ⟨2, ⟨"namcheee", "conventional-pr"⟩, "Closes #4"⟩
      = some { Name := "issue", Active := true, Result := some ⟨"no issue"⟩ } :=
  C2_failed_lookup_is_not_found sampleConstants
    (NewIssueValidator sampleConstants failingIssueClient ⟨true⟩)
    ⟨2, ⟨"namcheee", "conventional-pr"⟩, "Closes #4"⟩ [] rfl rfl (by simp)
    (fun _ _ _ => rfl)

/-- C2 fails as stated: on the body "Closes #4", with a successful native lookup that has no
reference, the `GetIssue` call made for the one extracted reference fails with an error, and
`IsValid` returns the result carrying `ErrNoIssue`, not a passing one. -/
theorem C2_counterexample :
    extractReferences ⟨2, ⟨"namcheee", "conventional-pr"⟩, "Closes #4"⟩
      = [some (⟨"namcheee", "conventional-pr"⟩, 4)] ∧
    failingIssueClient.GetIssueReferences ⟨"namcheee", "conventional-pr"⟩ 2 = ([], none) ∧
    failingIssueClient.GetIssue ⟨"namcheee", "conventional-pr"⟩ 4
      = (none, some ⟨"502 Bad Gateway"⟩) ∧
    (NewIssueValidator sampleConstants failingIssueClient ⟨true⟩).IsValid sampleConstants
        ⟨2, ⟨"namcheee", "conventional-pr"⟩, "Closes #4"⟩
      = some { Name := "issue", Active := true, Result := some ⟨"no issue"⟩ } ∧
    (NewIssueValidator sampleConstants failingIssueClient ⟨true⟩).IsValid sampleConstants
        ⟨2, ⟨"namcheee", "conventional-pr"⟩, "Closes #4"⟩
      ≠ some { Name := "issue", Active := true, Result := none } := by
  decide

/-- C3: with the rule enabled, an error from `GetIssueReferences` makes `IsValid` return exactly
the passing result, whatever the body, the repository and `GetIssue` are. -/
theorem C3_reference_lookup_error_passes (K : Constants) (v : issueValidator)
    (pullRequest : PullRequest) (references : List Meta) (err : GoError)
    (hcfg : v.config.Issue = true)
    (hrefs : v.client.GetIssueReferences pullRequest.Repository pullRequest.Number
      = (references, some err)) :
    v.IsValid K pullRequest
      = some { Name := K.IssueValidatorName, Active := true, Result := none } := by
  simp [issueValidator.IsValid, hcfg, hrefs]

/-- C3 at a concrete input: a client whose native lookup fails, on the body "Closes #4". -/
theorem C3_reference_lookup_error_passes_witness :
    (NewIssueValidator sampleConstants
        { failingIssueClient with
          GetIssueReferences := fun _ _ => ([], some ⟨"outage"⟩) } ⟨true⟩).IsValid
        sampleConstants ⟨99, ⟨"Namchee", "conventional-pr"⟩, "Closes #4"⟩
      = some { Name := "issue", Active := true, Result := none } :=
  C3_reference_lookup_error_passes sampleConstants _ _ [] ⟨"outage"⟩ rfl rfl

/-- C4: with the rule disabled, `IsValid` returns exactly the inactive passing result for every
pull request and every client; hence every result of `IsValid` with `Active = false` has a nil
`Result`. -/
theorem C4_disabled_is_inactive_pass (K : Constants) (v : issueValidator)
    (pullRequest : PullRequest) :
    (v.config.Issue = false →
      v.IsValid K pullRequest
        = some { Name := K.IssueValidatorName, Active := false, Result := none }) ∧
    (∀ r, v.IsValid K pullRequest = some r → r.Active = false → r.Result = none) := by
  constructor
  · intro hcfg
    simp [issueValidator.IsValid, hcfg]
  · intro r hr hact
    unfold issueValidator.IsValid at hr
    split at hr
    · cases hr; rfl
    · split at hr
      · cases hr; simp at hact
      · split at hr
        · cases hr; simp at hact
        · split at hr
          · cases hr
          · cases hr; simp at hact
          · cases hr; simp at hact


/-- C4 at a concrete input: the rule disabled, an empty body, a client whose calls fail. -/
theorem C4_disabled_is_inactive_pass_witness :
    (NewIssueValidator sampleConstants failingIssueClient ⟨false⟩).IsValid sampleConstants
        ⟨2, ⟨"Namchee", "conventional-pr"⟩, ""⟩
      = some { Name := "issue", Active := false, Result := none } :=
  (C4_disabled_is_inactive_pass sampleConstants _ _).1 rfl

/-- C5, evaluated on the code: in the body "Closed #3. Fixes vitejs/vite#1783" the greedy
group `(.+/.+)` runs from "#3" to "vite", so `keywordPattern` has one match and the only
reference extracted is issue 1783 of the repository with owner "#3. Fixes vitejs" and name "vite";
when issue 3 of the own repository is the only existing issue, `IsValid` returns the result
carrying `ErrNoIssue`. -/
theorem C5_one_reference_extracted :
    keywordPattern.FindAllStringSubmatch keywordPattern.NumSubexp
        "Closed #3. Fixes vitejs/vite#1783"
      = [["Closed #3. Fixes vitejs/vite#1783", "Closed", "#3. Fixes vitejs/vite", "1783"]] ∧
    extractReferences ⟨3, ⟨"namcheee", "conventional-pr"⟩, "Closed #3. Fixes vitejs/vite#1783"⟩
      = [some (⟨"#3. Fixes vitejs", "vite"⟩, 1783)] ∧
    onlyIssueThreeClient.GetIssue ⟨"namcheee", "conventional-pr"⟩ 3 = (some ⟨3⟩, none) ∧
    (NewIssueValidator sampleConstants onlyIssueThreeClient ⟨true⟩).IsValid sampleConstants
        ⟨3, ⟨"namcheee", "conventional-pr"⟩, "Closed #3. Fixes vitejs/vite#1783"⟩
      = some { Name := "issue", Active := true, Result := some ⟨"no issue"⟩ } := by
  decide

/-- C6: a body made of one of the nine keywords in any letter case, a non-empty run of
whitespace, `#` and a non-empty string of digits that fits in an `int` yields exactly one
reference, to the repository of the pull request with the number the digits denote; so with the
rule enabled and a native lookup that succeeds without own-repository reference, `IsValid` passes
if `GetIssue` returns an issue for that repository and number and returns the result carrying
`ErrNoIssue` if it returns none, whatever `GetIssue` returns elsewhere. -/
theorem C6_own_repository_reference (K : Constants) (v : issueValidator)
    (pullRequest : PullRequest) (kw ws d : String) (hkw : isKeyword kw.data)
    (hws : ws.data ≠ []) (hspace : ∀ y ∈ ws.data, isSpace y = true) (hd : d.data ≠ [])
    (hdigit : ∀ y ∈ d.data, isDigit y = true) (hfit : (decimalValue d.data : Int) ≤ maxInt)
    (hbody : pullRequest.Body = kw ++ ws ++ "#" ++ d) :
    extractReferences pullRequest
      = [some (pullRequest.Repository, (decimalValue d.data : Int))] ∧
    (v.config.Issue = true → ∀ references,
      v.client.GetIssueReferences pullRequest.Repository pullRequest.Number
        = (references, none) →
      (¬ ∃ r ∈ references, r.joined = pullRequest.Repository.joined) →
      ((v.client.GetIssue pullRequest.Repository (decimalValue d.data : Int)).1 ≠ none →
        v.IsValid K pullRequest
          = some { Name := K.IssueValidatorName, Active := true, Result := none }) ∧
      ((v.client.GetIssue pullRequest.Repository (decimalValue d.data : Int)).1 = none →
        v.IsValid K pullRequest
          = some { Name := K.IssueValidatorName, Active := true,
                   Result := some K.ErrNoIssue })) := by
  have hb : pullRequest.Body = String.mk (kw.data ++ (ws.data ++ '#' :: d.data)) := by
    rw [hbody]
    apply String.ext
    simp [String.data_append]
  have hextract := extractReferences_own pullRequest kw.data ws.data d.data hkw hws hspace hd
    hdigit hfit hb
  exact ⟨hextract, fun hcfg references hrefs hown =>
    IsValid_single_reference K v pullRequest references _ _ hcfg hrefs hown hextract⟩

/-- C6 at a concrete input: the body "CLOSES" + space and tab + "#3", a client that knows
issue 3 of the own repository only. -/
theorem C6_own_repository_reference_witness :
    extractReferences ⟨2, ⟨"namcheee", "conventional-pr"⟩, "CLOSES \t#3"⟩
      = [some (⟨"namcheee", "conventional-pr"⟩, 3)] ∧
    (NewIssueValidator sampleConstants onlyIssueThreeClient ⟨true⟩).IsValid sampleConstants
        ⟨2, ⟨"namcheee", "conventional-pr"⟩, "CLOSES \t#3"⟩
      = some { Name := "issue", Active := true, Result := none } := by
  have h := C6_own_repository_reference sampleConstants
    (NewIssueValidator sampleConstants onlyIssueThreeClient ⟨true⟩)
    ⟨2, ⟨"namcheee", "conventional-pr"⟩, "CLOSES \t#3"⟩ "CLOSES" " \t" "3"
    ⟨"closes", by decide, by unfold isCaseVariant; decide⟩ (by decide) (by decide) (by decide) (by decide)
    (by decide) rfl
  exact ⟨h.1, (h.2 rfl [] rfl (by simp)).1 (by decide)⟩

/-- C7: a body made of one of the nine keywords in any letter case, a non-empty run of
whitespace, `owner/repo` with non-empty owner and repo made of ASCII letters, digits, `-`, `_`
and `.`, `#` and a non-empty string of digits that fits in an `int` yields exactly one reference,
to the repository with that owner and name (not the own repository) and the number the digits
denote; with the rule enabled and a native lookup that succeeds without own-repository
reference, `IsValid` passes if and only if `GetIssue` returns an issue for that repository and
number, and returns the result carrying `ErrNoIssue` otherwise. -/
theorem C7_foreign_repository_reference (K : Constants) (v : issueValidator)
    (pullRequest : PullRequest) (kw ws owner repo d : String) (hkw : isKeyword kw.data)
    (hws : ws.data ≠ []) (hspace : ∀ y ∈ ws.data, isSpace y = true)
    (ho : owner.data ≠ []) (hochar : ∀ y ∈ owner.data, isRepoChar y = true)
    (hr : repo.data ≠ []) (hrchar : ∀ y ∈ repo.data, isRepoChar y = true)
    (hd : d.data ≠ []) (hdigit : ∀ y ∈ d.data, isDigit y = true)
    (hfit : (decimalValue d.data : Int) ≤ maxInt)
    (hbody : pullRequest.Body = kw ++ ws ++ owner ++ "/" ++ repo ++ "#" ++ d) :
    extractReferences pullRequest
      = [some ({ Owner := owner, Name := repo }, (decimalValue d.data : Int))] ∧
    (v.config.Issue = true → ∀ references,
      v.client.GetIssueReferences pullRequest.Repository pullRequest.Number
        = (references, none) →
      (¬ ∃ r ∈ references, r.joined = pullRequest.Repository.joined) →
      (v.IsValid K pullRequest
          = some { Name := K.IssueValidatorName, Active := true, Result := none }
        ↔ (v.client.GetIssue { Owner := owner, Name := repo }
            (decimalValue d.data : Int)).1 ≠ none) ∧
      ((v.client.GetIssue { Owner := owner, Name := repo }
            (decimalValue d.data : Int)).1 = none →
        v.IsValid K pullRequest
          = some { Name := K.IssueValidatorName, Active := true,
                   Result := some K.ErrNoIssue })) := by
  have hb : pullRequest.Body
      = String.mk (kw.data ++ (ws.data ++ (owner.data ++ '/' :: (repo.data ++ '#' :: d.data)))) := by
    rw [hbody]
    apply String.ext
    simp [String.data_append]
  have hextract := extractReferences_foreign pullRequest kw.data ws.data owner.data repo.data
    d.data hkw hws hspace ho hr hochar hrchar hd hdigit hfit hb
  refine ⟨hextract, fun hcfg references hrefs hown => ?_⟩
  obtain ⟨hpass, hfail⟩ :=
    IsValid_single_reference K v pullRequest references _ _ hcfg hrefs hown hextract
  refine ⟨⟨fun h hnone => ?_, hpass⟩, hfail⟩
  rw [hfail hnone] at h
  simp at h

/-- C7 at a concrete input: the body "Closes    vitejs/vite#1783" of the test suite, with a
client that knows no issue. -/
theorem C7_foreign_repository_reference_witness :
    extractReferences ⟨3, ⟨"namcheee", "conventional-pr"⟩, "Closes    vitejs/vite#1783"⟩
      = [some (⟨"vitejs", "vite"⟩, 1783)] ∧
    (NewIssueValidator sampleConstants onlyIssueThreeClient ⟨true⟩).IsValid sampleConstants
        ⟨3, ⟨"namcheee", "conventional-pr"⟩, "Closes    vitejs/vite#1783"⟩
      = some { Name := "issue", Active := true, Result := some ⟨"no issue"⟩ } := by
  have h := C7_foreign_repository_reference sampleConstants
    (NewIssueValidator sampleConstants onlyIssueThreeClient ⟨true⟩)
    ⟨3, ⟨"namcheee", "conventional-pr"⟩, "Closes    vitejs/vite#1783"⟩
    "Closes" "    " "vitejs" "vite" "1783"
    ⟨"closes", by decide, by unfold isCaseVariant; decide⟩ (by decide) (by decide) (by decide) (by decide)
    (by decide) (by decide) (by decide) (by decide) (by decide) rfl
  exact ⟨h.1, (h.2 rfl [] rfl (by simp)).2 (by decide)⟩

/-- C8: with the rule enabled, a body that contains none of the nine closing keywords in any
letter case, and a native lookup that succeeds with an empty list, no reference is extracted
from the body and `IsValid` returns the result carrying `ErrNoIssue`, whatever `GetIssue`
answers. -/
theorem C8_no_keyword_no_native_reference (K : Constants) (v : issueValidator)
    (pullRequest : PullRequest) (hcfg : v.config.Issue = true)
    (hbody : ¬ containsKeyword pullRequest.Body.data)
    (hrefs : v.client.GetIssueReferences pullRequest.Repository pullRequest.Number
      = ([], none)) :
    extractReferences pullRequest = [] ∧
    v.IsValid K pullRequest
      = some { Name := K.IssueValidatorName, Active := true, Result := some K.ErrNoIssue } := by
  have hnil : extractReferences pullRequest = [] := by
    unfold extractReferences
    rw [FindAllStringSubmatch_eq_nil _ hbody]
    rfl
  refine ⟨hnil, (IsValid_of_references K v pullRequest [] hcfg hrefs).2 ?_⟩
  rintro (⟨r, hr, -⟩ | ⟨org, num, hmem, -⟩)
  · cases hr
  · rw [hnil] at hmem
    cases hmem

/-- C8 at a concrete input: the empty body, a client without native reference. -/
theorem C8_no_keyword_no_native_reference_witness :
    extractReferences ⟨2, ⟨"Namchee", "conventional-pr"⟩, ""⟩ = [] ∧
    (NewIssueValidator sampleConstants onlyIssueThreeClient ⟨true⟩).IsValid sampleConstants
        ⟨2, ⟨"Namchee", "conventional-pr"⟩, ""⟩
      = some { Name := "issue", Active := true, Result := some ⟨"no issue"⟩ } :=
  C8_no_keyword_no_native_reference sampleConstants
    (NewIssueValidator sampleConstants onlyIssueThreeClient ⟨true⟩)
    ⟨2, ⟨"Namchee", "conventional-pr"⟩, ""⟩ rfl
    (by
      rintro ⟨pre, kw, post, ⟨w, hw, hv⟩, hb⟩
      have hne : ∀ w ∈ keywords, w.data ≠ [] := by decide
      have hkw : kw = [] := by
        have h := congrArg List.length hb
        simp only [List.length_append] at h
        have h0 : ("" : String).data.length = 0 := rfl
        rw [h0] at h
        exact List.length_eq_zero.mp (by omega)
      rw [isCaseVariant, hkw] at hv
      exact hne w hw hv.symm)
    rfl

/-- C9, as the code has it: the pre-check compares the joined "owner/name" strings, which is the
comparison of the owners and of the names whenever the owners (or the names) contain no `/`.
Under that condition on the references and the repository, the pre-check finds an own-repository
reference if and only if a reference has the owner and the name of the repository. -/
theorem C9_own_reference_iff_fields (pullRequest : PullRequest) (references : List Meta)
    (hslash :
      ((∀ r ∈ references, '/' ∉ r.Owner.data) ∧ '/' ∉ pullRequest.Repository.Owner.data) ∨
      ((∀ r ∈ references, '/' ∉ r.Name.data) ∧ '/' ∉ pullRequest.Repository.Name.data)) :
    hasOwnReference pullRequest references = true ↔
      ∃ r ∈ references,
        r.Owner = pullRequest.Repository.Owner ∧ r.Name = pullRequest.Repository.Name := by
  rw [hasOwnReference_iff]
  constructor
  · rintro ⟨r, hr, hj⟩
    refine ⟨r, hr, (joined_eq_iff r pullRequest.Repository ?_).mp hj⟩
    rcases hslash with ⟨h1, h2⟩ | ⟨h1, h2⟩
    · exact Or.inl ⟨h1 r hr, h2⟩
    · exact Or.inr ⟨h1 r hr, h2⟩
  · rintro ⟨r, hr, h1, h2⟩
    exact ⟨r, hr, by simp [Meta.joined, h1, h2]⟩

/-- C9 at a concrete input: one reference, to the repository of the pull request. -/
theorem C9_own_reference_iff_fields_witness :
    hasOwnReference ⟨1, ⟨"Namchee", "conventional-pr"⟩, ""⟩ [⟨"Namchee", "conventional-pr"⟩]
        = true ↔
      ∃ r ∈ [(⟨"Namchee", "conventional-pr"⟩ : Meta)],
        r.Owner = "Namchee" ∧ r.Name = "conventional-pr" :=
  C9_own_reference_iff_fields ⟨1, ⟨"Namchee", "conventional-pr"⟩, ""⟩
    [⟨"Namchee", "conventional-pr"⟩] (Or.inl (by decide))

/-- C9 fails as stated for all strings: the reference with owner "a/b" and name "c" has the
"owner/name" string of the repository with owner "a" and name "b/c", so the pre-check treats it
as the own repository although neither the owners nor the names are equal. -/
theorem C9_counterexample :
    hasOwnReference ⟨1, ⟨"a", "b/c"⟩, ""⟩ [⟨"a/b", "c"⟩] = true ∧
    (⟨"a/b", "c"⟩ : Meta).Owner ≠ (⟨"a", "b/c"⟩ : Meta).Owner ∧
    (⟨"a/b", "c"⟩ : Meta).Name ≠ (⟨"a", "b/c"⟩ : Meta).Name := by
  decide

/-- C10: `commitValidator.IsValid` returns a nil `Result` when `Commits` is false; when it is
true (and the configured pattern compiles), it returns a nil `Result` if and only if the pattern
matches the message of every commit `GetCommits` returned, and when some message does not match,
the `Result` is the error "commit <sha> does not have valid commit message" for the SHA of the
first such commit in list order, whatever the later commits are. -/
theorem C10_commit_messages (MustCompile : RegexpCompiler) (v : commitValidator)
    (pullRequest : GithubPullRequest) :
    (v.config.Commits = false →
      ∃ r, v.IsValid MustCompile pullRequest = some r ∧ r.Result = none) ∧
    (v.config.Commits = true → ∀ pattern, MustCompile v.config.Pattern = some pattern →
      ∃ r, v.IsValid MustCompile pullRequest = some r ∧
        (r.Result = none ↔
          ∀ c ∈ (v.client.GetCommits v.meta.Owner v.meta.Name pullRequest.GetNumber).1,
            pattern (Commit.GetMessage c.Commit) = true) ∧
        (∀ pre c post,
          (v.client.GetCommits v.meta.Owner v.meta.Name pullRequest.GetNumber).1
            = pre ++ c :: post →
          (∀ x ∈ pre, pattern (Commit.GetMessage x.Commit) = true) →
          pattern (Commit.GetMessage c.Commit) = false →
          r.Result = some ⟨"commit " ++ Commit.GetSHA c.Commit ++
            " does not have valid commit message"⟩)) := by
  constructor
  · intro hcfg
    exact ⟨{ Name := v.Name, Active := false, Result := none },
      by simp [commitValidator.IsValid, hcfg], rfl⟩
  · intro hcfg pattern hpat
    obtain ⟨-, hres, hfirst⟩ := check_spec v pattern
      (v.client.GetCommits v.meta.Owner v.meta.Name pullRequest.GetNumber).1
    exact ⟨v.check pattern
      (v.client.GetCommits v.meta.Owner v.meta.Name pullRequest.GetNumber).1,
      by simp [commitValidator.IsValid, hcfg, hpat], hres, hfirst⟩

/-- C10 at a concrete input: three commits of which the second is the first whose message does
not match; the error names its SHA "b2", not "c3". -/
theorem C10_commit_messages_witness :
    ∃ r, (sampleCommitValidator true).IsValid literalCompiler ⟨some 7⟩ = some r ∧
      r.Result = some ⟨"commit b2 does not have valid commit message"⟩ := by
  obtain ⟨r, hr, -, hfirst⟩ :=
    (C10_commit_messages literalCompiler (sampleCommitValidator true) ⟨some 7⟩).2 rfl _ rfl
  exact ⟨r, hr, hfirst [⟨some "a1", some ⟨some "feat: add parser", some "a1", none⟩⟩]
    ⟨some "b2", some ⟨some "oops", some "b2", none⟩⟩
    [⟨some "c3", some ⟨some "wip", some "c3", none⟩⟩]
    rfl (by decide) (by decide)⟩

/-- C11, as the code has it: `commitValidator.IsValid` discards the error of `GetCommits` and
validates whatever commits came back. With the rule enabled and a pattern that compiles, it
returns a nil `Result` whenever `GetCommits` returns an error together with no commit. -/
theorem C11_error_without_commits_passes (MustCompile : RegexpCompiler) (v : commitValidator)
    (pullRequest : GithubPullRequest) (pattern : String → Bool) (err : GoError)
    (hcfg : v.config.Commits = true) (hpat : MustCompile v.config.Pattern = some pattern)
    (herr : v.client.GetCommits v.meta.Owner v.meta.Name pullRequest.GetNumber
      = ([], some err)) :
    v.IsValid MustCompile pullRequest
      = some { Name := v.Name, Active := false, Result := none } := by
  simp [commitValidator.IsValid, hcfg, hpat, herr, commitValidator.check]

/-- C11 at a concrete input: a client whose `GetCommits` returns no commit and an error. -/
theorem C11_error_without_commits_passes_witness :
    (NewCommitValidator sampleConstants failingCommitsClient signedConfig
        ⟨"Namchee", "ethos"⟩).IsValid literalCompiler ⟨some 7⟩
      = some { Name := "commit", Active := false, Result := none } :=
  C11_error_without_commits_passes literalCompiler
    (NewCommitValidator sampleConstants failingCommitsClient signedConfig ⟨"Namchee", "ethos"⟩)
    ⟨some 7⟩ _ ⟨"502 Bad Gateway"⟩ rfl rfl rfl

/-- C11 fails as stated: `GetCommits` returns an error, and with it a commit whose message
"oops" the pattern "feat" does not match; `IsValid` returns a failing result for that commit. -/
theorem C11_counterexample :
    partialCommitsClient.GetCommits "Namchee" "ethos" 7
      = ([⟨some "b2", some ⟨some "oops", some "b2", none⟩⟩], some ⟨"unexpected EOF"⟩) ∧
    (NewCommitValidator sampleConstants partialCommitsClient signedConfig
        ⟨"Namchee", "ethos"⟩).IsValid literalCompiler ⟨some 7⟩
      = some { Name := "commit", Active := false,
               Result := some ⟨"commit b2 does not have valid commit message"⟩ } := by
  decide

/-- C12, evaluated on the code: the configuration enables the check of the signatures and the
only commit of the pull request has a signature that is not verified, yet both
`verifiedValidator.IsValid` and the validator built by `NewVerifiedValidator` return a nil
`Result`, because they only match the message "feat: add parser" against a pattern. -/
theorem C12_unverified_commit_passes :
    signedConfig.Signed = true ∧
    (∀ c ∈ (unverifiedCommitClient.GetCommits "Namchee" "ethos" 7).1,
      Commit.GetVerified c.Commit = false) ∧
    verifiedValidator.IsValid literalCompiler
        { client := unverifiedCommitClient, config := signedConfig,
          meta := ⟨"Namchee", "ethos"⟩, Name := "verified" } ⟨some 7⟩
      = some { Name := "verified", Active := false, Result := none } ∧
    (NewVerifiedValidator sampleConstants unverifiedCommitClient signedConfig
        ⟨"Namchee", "ethos"⟩).IsValid literalCompiler ⟨some 7⟩
      = some { Name := "commit", Active := false, Result := none } := by
  decide

/-- C13: `hasIssueMagicString` returns for every body; its `GetIssue` calls are, in extraction
order, the extracted references up to and including the first one for which `GetIssue` returns
a non-nil issue, in which case it returns `true` (the references before it returned no issue
and did not stop the scan); when no reference yields an issue the calls are all the extracted
references and it returns `false`. -/
theorem C13_calls_in_order_until_found (v : issueValidator) (pullRequest : PullRequest) :
    ∃ refs calls found,
      extractReferences pullRequest = refs.map some ∧
      v.hasIssueMagicStringTrace pullRequest = some (calls, found) ∧
      v.hasIssueMagicString pullRequest = some found ∧
      ((found = true ∧ ∃ pre r post, refs = pre ++ r :: post ∧
          (∀ x ∈ pre, (v.client.GetIssue x.1 x.2).1 = none) ∧
          (v.client.GetIssue r.1 r.2).1 ≠ none ∧ calls = pre ++ [r]) ∨
       (found = false ∧ (∀ x ∈ refs, (v.client.GetIssue x.1 x.2).1 = none) ∧
          calls = refs)) := by
  obtain ⟨refs, hrefs⟩ := resolved_references pullRequest
    (keywordPattern.FindAllStringSubmatch keywordPattern.NumSubexp pullRequest.Body)
    (fun m hm => resolveReference_of_mem pullRequest _ m hm)
  obtain ⟨calls, found, htrace, hlookup, hcase⟩ := lookupTrace_spec v pullRequest _ refs hrefs
  exact ⟨refs, calls, found, hrefs, htrace, hlookup, hcase⟩

/-- C14, as the code has it: for every body, a match whose owner/repo capture is not empty
resolves to a repository; the capture contains a `/`, the owner is the text before its first
`/` and the name the text between the first `/` and the second one (or the end), so neither
contains a `/`; and `Owner ++ "/" ++ Name` equals the capture exactly when the capture contains
one `/`. -/
theorem C14_owner_and_name_of_segment (pullRequest : PullRequest) (keyword : List String)
    (segment : String)
    (hmem : keyword ∈
      keywordPattern.FindAllStringSubmatch keywordPattern.NumSubexp pullRequest.Body)
    (hseg : keyword[2]? = some segment) (hne : 0 < segment.length) :
    ∃ org num, resolveReference pullRequest keyword = some (org, num) ∧
      '/' ∈ segment.data ∧ '/' ∉ org.Owner.data ∧ '/' ∉ org.Name.data ∧
      (∃ rest, segment.data = org.Owner.data ++ '/' :: org.Name.data ++ rest ∧
        (rest = [] ∨ rest.head? = some '/')) ∧
      (org.Owner ++ "/" ++ org.Name = segment ↔ segment.data.count '/' = 1) := by
  obtain ⟨w, kw, g, dg, rfl, -, hg, -, -⟩ := FindAllStringSubmatch_shape _ _ hmem
  simp only [List.getElem?_cons_succ, List.getElem?_cons_zero, Option.some.injEq] at hseg
  subst hseg
  have hgne : g ≠ [] := by
    intro h
    rw [h] at hne
    exact absurd hne (by decide)
  obtain ⟨org, hres, h1, h2, h3, h4, h5⟩ := resolveReference_segment pullRequest w kw g dg hg hgne
  exact ⟨org, _, hres, h1, h2, h3, h4, h5⟩

/-- C14 at a concrete input: the body "fix a/b#1", whose capture "a/b" has one `/`. -/
theorem C14_owner_and_name_of_segment_witness :
    ∃ org num,
      resolveReference ⟨1, ⟨"Namchee", "conventional-pr"⟩, "fix a/b#1"⟩
          ["fix a/b#1", "fix", "a/b", "1"] = some (org, num) ∧
      '/' ∈ "a/b".data ∧ '/' ∉ org.Owner.data ∧ '/' ∉ org.Name.data ∧
      (∃ rest, "a/b".data = org.Owner.data ++ '/' :: org.Name.data ++ rest ∧
        (rest = [] ∨ rest.head? = some '/')) ∧
      (org.Owner ++ "/" ++ org.Name = "a/b" ↔ "a/b".data.count '/' = 1) :=
  C14_owner_and_name_of_segment ⟨1, ⟨"Namchee", "conventional-pr"⟩, "fix a/b#1"⟩
    ["fix a/b#1", "fix", "a/b", "1"] "a/b" (by decide) rfl (by decide)

/-- C14 fails as stated: the body "fix a/b/c#1" has one match, whose owner/repo capture
"a/b/c" contains two `/`; it resolves to the repository with owner "a" and name "b", and
"a" ++ "/" ++ "b" is not the capture. -/
theorem C14_counterexample :
    keywordPattern.FindAllStringSubmatch keywordPattern.NumSubexp "fix a/b/c#1"
      = [["fix a/b/c#1", "fix", "a/b/c", "1"]] ∧
    extractReferences ⟨1, ⟨"Namchee", "conventional-pr"⟩, "fix a/b/c#1"⟩
      = [some (⟨"a", "b"⟩, 1)] ∧
    "a/b/c".data.count '/' = 2 ∧
    ("a" : String) ++ "/" ++ "b" ≠ "a/b/c" := by
  decide

/-- C15, as the code has it: for every body, every issue number that `hasIssueMagicString`
passes to `GetIssue` comes from the digits captured after `#` in a match, a non-empty string
of digits; whenever the value of these digits fits in an `int`, the number is that value, so it
is not negative (it is 0 for digits that are all zero). -/
theorem C15_number_is_value_of_digits (v : issueValidator) (pullRequest : PullRequest)
    (calls : List (Meta × Int)) (found : Bool) (org : Meta) (num : Int)
    (htrace : v.hasIssueMagicStringTrace pullRequest = some (calls, found))
    (hcall : (org, num) ∈ calls) :
    ∃ keyword ∈
        keywordPattern.FindAllStringSubmatch keywordPattern.NumSubexp pullRequest.Body,
      ∃ digits, keyword[3]? = some digits ∧ digits.data ≠ [] ∧
        (∀ y ∈ digits.data, isDigit y = true) ∧
        ((decimalValue digits.data : Int) ≤ maxInt →
          num = (decimalValue digits.data : Int) ∧ 0 ≤ num) := by
  obtain ⟨m, hm, hres⟩ := lookupTrace_calls v pullRequest _ calls found htrace (org, num) hcall
  obtain ⟨w, kw, g, dg, rfl, -, hg, hdg, hdigit⟩ := FindAllStringSubmatch_shape _ _ hm
  refine ⟨_, hm, String.mk dg, rfl, hdg, hdigit, ?_⟩
  intro hfit
  obtain ⟨org', hres', -⟩ := resolveReference_match pullRequest w kw g dg hg
  rw [hres'] at hres
  simp only [Option.some.injEq, Prod.mk.injEq] at hres
  rw [← hres.2, Atoi_digits dg hdg hdigit hfit]
  exact ⟨rfl, Int.ofNat_nonneg _⟩

/-- C15 at a concrete input: the body "Closes #3", for which the one call passes 3. -/
theorem C15_number_is_value_of_digits_witness :
    ∃ keyword ∈ keywordPattern.FindAllStringSubmatch keywordPattern.NumSubexp "Closes #3",
      ∃ digits, keyword[3]? = some digits ∧ digits.data ≠ [] ∧
        (∀ y ∈ digits.data, isDigit y = true) ∧
        ((decimalValue digits.data : Int) ≤ maxInt →
          (3 : Int) = (decimalValue digits.data : Int) ∧ (0 : Int) ≤ 3) :=
  C15_number_is_value_of_digits (NewIssueValidator sampleConstants onlyIssueThreeClient ⟨true⟩)
    ⟨2, ⟨"namcheee", "conventional-pr"⟩, "Closes #3"⟩
    [(⟨"namcheee", "conventional-pr"⟩, 3)] true ⟨"namcheee", "conventional-pr"⟩ 3
    (by decide) (by decide)

/-- C15 fails as stated: on the body "fix #0" the one `GetIssue` call of
`hasIssueMagicString` passes the number 0, which is not at least 1. -/
theorem C15_counterexample :
    (NewIssueValidator sampleConstants onlyIssueThreeClient ⟨true⟩).hasIssueMagicStringTrace
        ⟨2, ⟨"namcheee", "conventional-pr"⟩, "fix #0"⟩
      = some ([(⟨"namcheee", "conventional-pr"⟩, 0)], false) ∧
    ¬ ((1 : Int) ≤ 0) := by
  decide

/-- C16: `issueValidator.IsValid` returns a result for every configuration, body and client,
because every match of `keywordPattern` has four strings (so index 3 exists) and every
non-empty owner/repo capture contains a `/`, so `strings.Split` yields at least two tokens and
index 1 exists. -/
theorem C16_IsValid_returns (K : Constants) (v : issueValidator) (pullRequest : PullRequest) :
    (∃ r, v.IsValid K pullRequest = some r) ∧
    (∃ found, v.hasIssueMagicString pullRequest = some found) ∧
    ∀ keyword ∈
        keywordPattern.FindAllStringSubmatch keywordPattern.NumSubexp pullRequest.Body,
      keyword.length = 4 ∧
      ∀ segment, keyword[2]? = some segment → 0 < segment.length →
        '/' ∈ segment.data ∧ 2 ≤ (Split segment '/').length ∧
        ∃ t1, (Split segment '/')[1]? = some t1 := by
  refine ⟨IsValid_total K v pullRequest, ?_, ?_⟩
  · obtain ⟨b, hb, -⟩ := hasIssueMagicString_spec v pullRequest
    exact ⟨b, hb⟩
  · intro keyword hmem
    obtain ⟨w, kw, g, dg, rfl, -, hg, -, -⟩ := FindAllStringSubmatch_shape _ _ hmem
    refine ⟨rfl, ?_⟩
    intro segment hseg hne
    simp only [List.getElem?_cons_succ, List.getElem?_cons_zero, Option.some.injEq] at hseg
    subst hseg
    rcases hg with rfl | ⟨a, b, -, -, rfl, -, -⟩
    · exact absurd hne (by decide)
    · have hlen : 2 ≤ (Split (String.mk (a ++ '/' :: b)) '/').length := by
        simp only [Split, List.length_map]
        exact splitRunes_length_append '/' a b
      exact ⟨by simp, hlen, _, List.getElem?_eq_getElem (by omega)⟩

/-- C17: the value `NewVerifiedValidator` builds is the `commitValidator` that
`NewCommitValidator` builds, named `CommitValidatorName`; so for every pull request its
`IsValid` is `commitValidator.IsValid` on that value: it does not depend on `CommitPattern`, it
returns a nil `Result` when `Commits` is false, and otherwise (for a pattern that compiles) a
nil `Result` exactly when `Pattern` matches the message of every commit. -/
theorem C17_verified_is_commit_validator (K : Constants) (MustCompile : RegexpCompiler)
    (client : GithubClient) (config : Config) (meta : Meta)
    (pullRequest : GithubPullRequest) :
    NewVerifiedValidator K client config meta
      = Validator.commit (NewCommitValidator K client config meta) ∧
    (NewCommitValidator K client config meta).Name = K.CommitValidatorName ∧
    (NewVerifiedValidator K client config meta).IsValid MustCompile pullRequest
      = (NewCommitValidator K client config meta).IsValid MustCompile pullRequest ∧
    (∀ commitPattern,
      (NewVerifiedValidator K client { config with CommitPattern := commitPattern }
          meta).IsValid MustCompile pullRequest
        = (NewVerifiedValidator K client config meta).IsValid MustCompile pullRequest) ∧
    (config.Commits = false →
      (NewVerifiedValidator K client config meta).IsValid MustCompile pullRequest
        = some { Name := K.CommitValidatorName, Active := false, Result := none }) ∧
    (config.Commits = true → ∀ pattern, MustCompile config.Pattern = some pattern →
      ∃ r, (NewVerifiedValidator K client config meta).IsValid MustCompile pullRequest
          = some r ∧
        (r.Result = none ↔
          ∀ c ∈ (client.GetCommits meta.Owner meta.Name pullRequest.GetNumber).1,
            pattern (Commit.GetMessage c.Commit) = true)) := by
  refine ⟨rfl, rfl, rfl, fun commitPattern => ?_, ?_, ?_⟩
  · exact commitValidator_IsValid_commitPattern MustCompile
      (NewCommitValidator K client config meta) commitPattern pullRequest
  · intro hcfg
    simp [NewVerifiedValidator, Validator.IsValid, commitValidator.IsValid, hcfg]
  · intro hcfg pattern hpat
    obtain ⟨-, hres, -⟩ := check_spec
      (NewCommitValidator K client config meta) pattern
      (client.GetCommits meta.Owner meta.Name pullRequest.GetNumber).1
    exact ⟨_, by
      simp [NewVerifiedValidator, Validator.IsValid, commitValidator.IsValid, hcfg, hpat,
        NewCommitValidator], hres⟩

/-- C17 at a concrete input: with `Commits` false the validator built by
`NewVerifiedValidator` passes under the name of the commit validator, whatever
`CommitPattern` is. -/
theorem C17_verified_is_commit_validator_witness :
    (NewVerifiedValidator sampleConstants threeCommitsClient
        { Commits := false, Pattern := "feat", CommitPattern := "fix", Signed := true }
        ⟨"Namchee", "ethos"⟩).IsValid literalCompiler ⟨some 7⟩
      = some { Name := "commit", Active := false, Result := none } :=
  (C17_verified_is_commit_validator sampleConstants literalCompiler threeCommitsClient
    { Commits := false, Pattern := "feat", CommitPattern := "fix", Signed := true }
    ⟨"Namchee", "ethos"⟩ ⟨some 7⟩).2.2.2.2.1 rfl

end ConventionalPR
